import Mathlib

/-!
# Verification of the Serato tag codec (`serato-tags-rs`)

A shallow embedding of the repository's tag codecs (`src/tag/markers2.rs`,
`src/tag/analysis.rs`, `src/tag/relvolad.rs`) over `List Nat` byte strings,
together with proofs about parsing/serialisation behaviour.

Machine integers are modelled as `Nat` with explicit `% 2 ^ w` where the code
truncates (`as u32` casts).  `f64` fields are modelled by their big-endian
8-byte representation: the code only moves those bytes (`be_f64` /
`to_be_bytes`), which is a bit-exact transmute, so the byte-vector model is
faithful.  Rust `&[u8]` slices are lists of naturals; where a theorem
quantifies over arbitrary inputs, byte-ness (`< 256`) is an explicit
hypothesis.

Code of the repository that is not under `src/` (the `util`, `generic`,
`color` and `format::enveloped` modules: `take_version`, `take_color`,
`take_utf8`, the generic marker structs and the enveloped base64 helpers) is
modelled from the spec; each such definition is marked `Modelled from the
spec:` in its doc comment.  The external `base64` crate is embedded with
RFC 4648 semantics matching the spec's description: padding is optional on
decode, a length `≡ 1 (mod 4)` is an invalid-length error, and non-zero
trailing bits in the final symbol are an invalid-last-symbol error.
-/

/-- Byte strings: lists of naturals (each `< 256` for genuine byte input). -/
abbrev Bytes := List Nat

/-- All elements of a byte string are genuine bytes. -/
def BytesWF (s : Bytes) : Prop := ∀ x ∈ s, x < 256

/-- Big-endian bytes of `n` truncated to `u32`, i.e. `(n as u32).to_be_bytes()`. -/
def beBytes32 (n : Nat) : Bytes :=
  [n / 2 ^ 24 % 256, n / 2 ^ 16 % 256, n / 2 ^ 8 % 256, n % 256]

/-- `nom::bytes::complete::take(n)`: split off exactly `n` bytes, yielding
`(rest, taken)`; fails when fewer than `n` bytes remain. -/
def takeExact : Nat → Bytes → Option (Bytes × Bytes)
  | 0, s => some (s, [])
  | _ + 1, [] => none
  | n + 1, b :: t =>
    match takeExact n t with
    | some (r, xs) => some (r, b :: xs)
    | none => none

/-- `nom::number::complete::u8`: one byte. -/
def take_u8 : Bytes → Option (Bytes × Nat)
  | [] => none
  | b :: t => some (t, b)

/-- `nom::number::complete::be_u32`: four bytes, big-endian. -/
def take_u32be : Bytes → Option (Bytes × Nat)
  | a :: b :: c :: d :: t => some (t, ((a * 256 + b) * 256 + c) * 256 + d)
  | _ => none

/-- `nom::bytes::complete::tag lit`: the input must start with `lit`. -/
def take_tag : Bytes → Bytes → Option (Bytes × Bytes)
  | [], s => some (s, [])
  | _ :: _, [] => none
  | l :: lt, b :: t =>
    if b = l then
      match take_tag lt t with
      | some (r, xs) => some (r, l :: xs)
      | none => none
    else none

/-- UTF-8 continuation byte (`10xxxxxx`). -/
def utf8Cont (b : Nat) : Bool := 128 ≤ b && b ≤ 191

/-- Constraint on the second byte of a three-byte UTF-8 sequence (rules out
overlong encodings and surrogates). -/
def utf8Mid3 (b1 b2 : Nat) : Bool :=
  if b1 = 224 then 160 ≤ b2 && b2 ≤ 191
  else if b1 = 237 then 128 ≤ b2 && b2 ≤ 159
  else utf8Cont b2

/-- Constraint on the second byte of a four-byte UTF-8 sequence (rules out
overlong encodings and code points above U+10FFFF). -/
def utf8Mid4 (b1 b2 : Nat) : Bool :=
  if b1 = 240 then 144 ≤ b2 && b2 ≤ 191
  else if b1 = 244 then 128 ≤ b2 && b2 ≤ 143
  else utf8Cont b2

/-- Standard UTF-8 validity of a byte string (as `String::from_utf8` checks). -/
def validUtf8 : Bytes → Bool
  | [] => true
  | b :: t =>
    if b < 128 then validUtf8 t
    else if 194 ≤ b && b ≤ 223 then
      match t with
      | b2 :: r => utf8Cont b2 && validUtf8 r
      | [] => false
    else if 224 ≤ b && b ≤ 239 then
      match t with
      | b2 :: b3 :: r => utf8Mid3 b b2 && utf8Cont b3 && validUtf8 r
      | _ => false
    else if 240 ≤ b && b ≤ 244 then
      match t with
      | b2 :: b3 :: b4 :: r => utf8Mid4 b b2 && utf8Cont b3 && utf8Cont b4 && validUtf8 r
      | _ => false
    else false

/-- Split a byte string at its first `0x00`: `(bytes before, bytes after)`.
Fails when no null byte is present. -/
def splitAtZero : Bytes → Option (Bytes × Bytes)
  | [] => none
  | b :: t =>
    if b = 0 then some ([], t)
    else
      match splitAtZero t with
      | some (pre, r) => some (b :: pre, r)
      | none => none

/-- Modelled from the spec: `crate::util::take_utf8` (the `util` module is not
under `src/`): "reads bytes until (and consuming) a `0x00` terminator; bytes
before the terminator must decode as UTF-8 or the call fails".  Returns
`(rest, string-bytes)`. -/
def take_utf8 (s : Bytes) : Option (Bytes × Bytes) :=
  match splitAtZero s with
  | some (pre, r) => if validUtf8 pre then some (r, pre) else none
  | none => none

/-- A two-byte version record (`generic::Version`, modelled from the spec:
"two u8: `major`, `minor`"). -/
structure Version where
  major : Nat
  minor : Nat
deriving DecidableEq, Repr

/-- Modelled from the spec: `util::take_version` "consumes exactly 2 bytes;
first is major, second is minor". -/
def take_version : Bytes → Option (Bytes × Version)
  | a :: b :: t => some (t, ⟨a, b⟩)
  | _ => none

/-- Modelled from the spec: `util::write_version` "writes 2 bytes". -/
def write_version (v : Version) : Bytes := [v.major, v.minor]

/-- A three-byte RGB colour (`color::Color`).  Modelled from the spec: the
stored↔displayed mapping is a fixed bijection that is applied on parse and
inverted on write; since no claim inspects colour channel values, the
composition is modelled as the identity on the three stored bytes, which is
byte-level faithful for every bijection. -/
structure Color where
  red : Nat
  green : Nat
  blue : Nat
deriving DecidableEq, Repr

/-- Modelled from the spec: `util::take_color` "consumes exactly 3 bytes
r,g,b". -/
def take_color : Bytes → Option (Bytes × Color)
  | r :: g :: b :: t => some (t, ⟨r, g, b⟩)
  | _ => none

/-- Modelled from the spec: `util::write_color` inverts `take_color`. -/
def write_color (c : Color) : Bytes := [c.red, c.green, c.blue]

/-! ## Base64 (external `base64` crate, RFC 4648 semantics per the spec) -/

/-- Base64 alphabet character for a sextet `k < 64`. -/
def b64EncChar (k : Nat) : Nat :=
  if k < 26 then k + 65
  else if k < 52 then k + 71
  else if k < 62 then k - 4
  else if k = 62 then 43
  else 47

/-- Sextet value of a base64 alphabet character. -/
def b64DecChar (c : Nat) : Option Nat :=
  if 65 ≤ c ∧ c ≤ 90 then some (c - 65)
  else if 97 ≤ c ∧ c ≤ 122 then some (c - 71)
  else if 48 ≤ c ∧ c ≤ 57 then some (c + 4)
  else if c = 43 then some 62
  else if c = 47 then some 63
  else none

/-- Errors of the `base64` crate's decoder that this code can hit. -/
inductive B64Err where
  | invalidByte
  | invalidLength
  | invalidLastSymbol
deriving DecidableEq, Repr

/-- Unpadded base64 decoding of 4-character groups with a final 2- or
3-character group; non-zero trailing bits in the last symbol are an error
(the crate's default `decode_allow_trailing_bits = false`). -/
def b64DecodeCore : Bytes → Except B64Err Bytes
  | [] => .ok []
  | [_] => .error .invalidLength
  | [w, x] =>
    match b64DecChar w, b64DecChar x with
    | some v1, some v2 =>
      if v2 % 16 = 0 then .ok [v1 * 4 + v2 / 16] else .error .invalidLastSymbol
    | _, _ => .error .invalidByte
  | [w, x, y] =>
    match b64DecChar w, b64DecChar x, b64DecChar y with
    | some v1, some v2, some v3 =>
      if v3 % 4 = 0 then .ok [v1 * 4 + v2 / 16, v2 % 16 * 16 + v3 / 4]
      else .error .invalidLastSymbol
    | _, _, _ => .error .invalidByte
  | w :: x :: y :: z :: t =>
    match b64DecChar w, b64DecChar x, b64DecChar y, b64DecChar z with
    | some v1, some v2, some v3, some v4 =>
      match b64DecodeCore t with
      | .ok rest =>
        .ok ((v1 * 4 + v2 / 16) :: (v2 % 16 * 16 + v3 / 4) :: (v3 % 4 * 64 + v4) :: rest)
      | .error e => .error e
    | _, _, _, _ => .error .invalidByte

/-- Pad-optional base64 decoding as the `base64` crate performs it on
pad-free input: a total length `≡ 1 (mod 4)` is `InvalidLength`; otherwise
the groups are decoded. -/
def b64_decode_lenient (s : Bytes) : Except B64Err Bytes :=
  if s.length % 4 = 1 then .error .invalidLength else b64DecodeCore s

/-- Unpadded base64 encoding of a byte string (standard alphabet, no `=`). -/
def b64EncodeNoPad : Bytes → Bytes
  | [] => []
  | [a] => [b64EncChar (a / 4), b64EncChar (a % 4 * 16)]
  | [a, b] => [b64EncChar (a / 4), b64EncChar (a % 4 * 16 + b / 16), b64EncChar (b % 16 * 4)]
  | a :: b :: c :: t =>
    b64EncChar (a / 4) :: b64EncChar (a % 4 * 16 + b / 16) ::
      b64EncChar (b % 16 * 4 + c / 64) :: b64EncChar (c % 64) :: b64EncodeNoPad t

/-! ## Generic marker data model (`generic.rs`, modelled from the spec's §3
data-model table; field names as in `markers2.rs`'s uses).  All `f64` fields
are modelled by their 8 big-endian bytes. -/

/-- A cue point (`generic::Cue`). -/
structure Cue where
  index : Nat
  position_millis : Nat
  color : Color
  label : Bytes
deriving DecidableEq, Repr

/-- A saved loop (`generic::Loop`). -/
structure Loop where
  index : Nat
  start_position_millis : Nat
  end_position_millis : Nat
  color : Color
  is_locked : Bool
  label : Bytes
deriving DecidableEq, Repr

/-- A flip jump action; the two `f64` positions are kept as raw 8-byte
big-endian vectors. -/
structure JumpFlipAction where
  source_position_seconds : Bytes
  target_position_seconds : Bytes
deriving DecidableEq, Repr

/-- A flip censor action; the three `f64` fields are raw 8-byte vectors. -/
structure CensorFlipAction where
  start_position_seconds : Bytes
  end_position_seconds : Bytes
  speed_factor : Bytes
deriving DecidableEq, Repr

/-- A flip action of unknown id, preserved verbatim. -/
structure UnknownFlipAction where
  id : Nat
  data : Bytes
deriving DecidableEq, Repr

/-- `generic::FlipAction`. -/
inductive FlipAction where
  | Jump (a : JumpFlipAction)
  | Censor (a : CensorFlipAction)
  | Unknown (a : UnknownFlipAction)
deriving DecidableEq, Repr

/-- `generic::Flip`. -/
structure Flip where
  index : Nat
  is_enabled : Bool
  label : Bytes
  is_loop : Bool
  actions : List FlipAction
deriving DecidableEq, Repr

/-- An unknown marker, preserved verbatim (`markers2::UnknownMarker`). -/
structure UnknownMarker where
  name : Bytes
  data : Bytes
deriving DecidableEq, Repr

/-- A `COLOR` marker (`markers2::TrackColorMarker`). -/
structure TrackColorMarker where
  color : Color
deriving DecidableEq, Repr

/-- A `BPMLOCK` marker (`markers2::BPMLockMarker`). -/
structure BPMLockMarker where
  is_locked : Bool
deriving DecidableEq, Repr

/-- A marker in the `Serato Markers2` tag (`markers2::Marker`). -/
inductive Marker where
  | Unknown (m : UnknownMarker)
  | Color (m : TrackColorMarker)
  | BPMLock (m : BPMLockMarker)
  | Cue (m : Cue)
  | Loop (m : Loop)
  | Flip (m : Flip)
deriving DecidableEq, Repr

/-- The decoded content of the tag (`markers2::Markers2Content`). -/
structure Markers2Content where
  version : Version
  markers : List Marker
deriving DecidableEq, Repr

/-- The `Serato Markers2` tag value (`markers2::Markers2`). -/
structure Markers2 where
  version : Option Version
  size : Nat
  content : Markers2Content
deriving DecidableEq, Repr

/-! ## `Markers2` parsing (from `src/tag/markers2.rs`) -/

/-- `markers2::is_base64`: ASCII alphanumeric or `+` or `/`. -/
def is_base64 (c : Nat) : Bool :=
  (65 ≤ c && c ≤ 90) || (97 ≤ c && c ≤ 122) || (48 ≤ c && c ≤ 57) || c == 43 || c == 47

/-- Longest base64-alphabet run at the front of the input:
`(run, remainder)`. -/
def spanB64 : Bytes → Bytes × Bytes
  | [] => ([], [])
  | b :: t =>
    if is_base64 b then
      match spanB64 t with
      | (c, r) => (b :: c, r)
    else ([], b :: t)

/-- `markers2::take_base64_chunk`: a non-empty base64 run followed by a
peeked null byte (not consumed) or a consumed newline. -/
def take_base64_chunk (s : Bytes) : Option (Bytes × Bytes) :=
  match spanB64 s with
  | ([], _) => none
  | (c :: cs, rest) =>
    match rest with
    | 0 :: _ => some (rest, c :: cs)
    | 10 :: r => some (r, c :: cs)
    | _ => none

/-- Loop body of `markers2::take_base64_chunks`
(`many_till(take_base64_chunk, peek_nullbyte)`), fuelled; every iteration
consumes at least one byte, so the fuel `input.length + 1` used below never
runs out. -/
def take_base64_chunks_go : Nat → Bytes → Option (Bytes × List Bytes)
  | 0, _ => none
  | fuel + 1, s =>
    match s with
    | 0 :: _ => some (s, [])
    | _ =>
      match take_base64_chunk s with
      | none => none
      | some (r, c) =>
        match take_base64_chunks_go fuel r with
        | none => none
        | some (r', cs) => some (r', c :: cs)

/-- `markers2::take_base64_chunks`. -/
def take_base64_chunks (s : Bytes) : Option (Bytes × List Bytes) :=
  take_base64_chunks_go (s.length + 1) s

/-- Outcome of `markers2::decode_base64_chunks`, which calls
`Result::unwrap` on the crate's decode result (`// TODO: Add proper error
handling here`): `panic` is the unwrap of an error value. -/
inductive DecRes where
  | ok (d : Bytes)
  | err
  | panic
deriving DecidableEq, Repr

/-- Per-chunk body of `markers2::decode_base64_chunks`: reject chunks longer
than 72, decode, retry once with an appended `'A'` only when the first
attempt failed with `InvalidLength`, then `unwrap` the result. -/
def decodeOneChunk (chunk : Bytes) : DecRes :=
  if 72 < chunk.length then .err
  else
    match b64_decode_lenient chunk with
    | .ok d => .ok d
    | .error .invalidLength =>
      match b64_decode_lenient (chunk ++ [65]) with
      | .ok d => .ok d
      | .error _ => .panic
    | .error _ => .panic

/-- `markers2::decode_base64_chunks`: concatenation of the per-chunk
decodes. -/
def decode_base64_chunks : List Bytes → DecRes
  | [] => .ok []
  | c :: cs =>
    match decodeOneChunk c with
    | .ok d =>
      match decode_base64_chunks cs with
      | .ok ds => .ok (d ++ ds)
      | r => r
    | r => r

/-- `markers2::take_bool`: one byte, non-zero is `true`. -/
def take_bool : Bytes → Option (Bytes × Bool)
  | [] => none
  | b :: t => some (t, b != 0)

/-- The byte string `"BPMLOCK"`. -/
def nmBPMLOCK : Bytes := [66, 80, 77, 76, 79, 67, 75]

/-- The byte string `"COLOR"`. -/
def nmCOLOR : Bytes := [67, 79, 76, 79, 82]

/-- The byte string `"CUE"`. -/
def nmCUE : Bytes := [67, 85, 69]

/-- The byte string `"LOOP"`. -/
def nmLOOP : Bytes := [76, 79, 79, 80]

/-- The byte string `"FLIP"`. -/
def nmFLIP : Bytes := [70, 76, 73, 80]

/-- `markers2::take_marker_name`: a non-empty null-terminated UTF-8 name not
beginning with a null byte. -/
def take_marker_name (s : Bytes) : Option (Bytes × Bytes) :=
  match s with
  | 0 :: _ => none
  | _ =>
    match take_utf8 s with
    | some (r, name) => if name = [] then none else some (r, name)
    | none => none

/-- `markers2::take_bpmlock_marker`. -/
def take_bpmlock_marker (s : Bytes) : Option (Bytes × Marker) :=
  match take_bool s with
  | some (r, v) => some (r, .BPMLock ⟨v⟩)
  | none => none

/-- `markers2::take_color_marker`. -/
def take_color_marker (s : Bytes) : Option (Bytes × Marker) :=
  match take_tag [0] s with
  | some (r1, _) =>
    match take_color r1 with
    | some (r2, c) => some (r2, .Color ⟨c⟩)
    | none => none
  | none => none

/-- `markers2::take_cue_marker`. -/
def take_cue_marker (s : Bytes) : Option (Bytes × Marker) :=
  match take_tag [0] s with
  | some (r1, _) =>
    match take_u8 r1 with
    | some (r2, index) =>
      match take_u32be r2 with
      | some (r3, pos) =>
        match take_tag [0] r3 with
        | some (r4, _) =>
          match take_color r4 with
          | some (r5, c) =>
            match take_tag [0, 0] r5 with
            | some (r6, _) =>
              match take_utf8 r6 with
              | some (r7, label) => some (r7, .Cue ⟨index, pos, c, label⟩)
              | none => none
            | none => none
          | none => none
        | none => none
      | none => none
    | none => none
  | none => none

/-- `markers2::take_loop_marker`. -/
def take_loop_marker (s : Bytes) : Option (Bytes × Marker) :=
  match take_tag [0] s with
  | some (r1, _) =>
    match take_u8 r1 with
    | some (r2, index) =>
      match take_u32be r2 with
      | some (r3, startPos) =>
        match take_u32be r3 with
        | some (r4, endPos) =>
          match take_tag [255, 255, 255, 255] r4 with
          | some (r5, _) =>
            match take_tag [0] r5 with
            | some (r6, _) =>
              match take_color r6 with
              | some (r7, c) =>
                match take_tag [0] r7 with
                | some (r8, _) =>
                  match take_bool r8 with
                  | some (r9, locked) =>
                    match take_utf8 r9 with
                    | some (r10, label) =>
                      some (r10, .Loop ⟨index, startPos, endPos, c, locked, label⟩)
                    | none => none
                  | none => none
                | none => none
              | none => none
            | none => none
          | none => none
        | none => none
      | none => none
    | none => none
  | none => none

/-- `markers2::take_flip_marker_action_jump`: two big-endian `f64`s, kept as
raw bytes. -/
def take_flip_marker_action_jump (s : Bytes) : Option (Bytes × FlipAction) :=
  match takeExact 8 s with
  | some (r1, src) =>
    match takeExact 8 r1 with
    | some (r2, tgt) => some (r2, .Jump ⟨src, tgt⟩)
    | none => none
  | none => none

/-- `markers2::take_flip_marker_action_censor`: three big-endian `f64`s,
kept as raw bytes. -/
def take_flip_marker_action_censor (s : Bytes) : Option (Bytes × FlipAction) :=
  match takeExact 8 s with
  | some (r1, a) =>
    match takeExact 8 r1 with
    | some (r2, b) =>
      match takeExact 8 r2 with
      | some (r3, c) => some (r3, .Censor ⟨a, b, c⟩)
      | none => none
    | none => none
  | none => none

/-- `markers2::take_flip_marker_action`: id byte, `u32` length, that many
data bytes; ids 0/1 dispatch to `all_consuming` jump/censor, others are
preserved as `Unknown`. -/
def take_flip_marker_action (s : Bytes) : Option (Bytes × FlipAction) :=
  match take_u8 s with
  | some (r1, id) =>
    match take_u32be r1 with
    | some (r2, len) =>
      match takeExact len r2 with
      | some (r3, data) =>
        if id = 0 then
          match take_flip_marker_action_jump data with
          | some ([], a) => some (r3, a)
          | _ => none
        else if id = 1 then
          match take_flip_marker_action_censor data with
          | some ([], a) => some (r3, a)
          | _ => none
        else some (r3, .Unknown ⟨id, data⟩)
      | none => none
    | none => none
  | none => none

/-- `length_count(be_u32, take_flip_marker_action)`: exactly `n` actions. -/
def take_flip_actions_go : Nat → Bytes → Option (Bytes × List FlipAction)
  | 0, s => some (s, [])
  | n + 1, s =>
    match take_flip_marker_action s with
    | some (r, a) =>
      match take_flip_actions_go n r with
      | some (r', as_) => some (r', a :: as_)
      | none => none
    | none => none

/-- `markers2::take_flip_marker`. -/
def take_flip_marker (s : Bytes) : Option (Bytes × Marker) :=
  match take_tag [0] s with
  | some (r1, _) =>
    match take_u8 r1 with
    | some (r2, index) =>
      match take_bool r2 with
      | some (r3, enabled) =>
        match take_utf8 r3 with
        | some (r4, label) =>
          match take_bool r4 with
          | some (r5, loop) =>
            match take_u32be r5 with
            | some (r6, count) =>
              match take_flip_actions_go count r6 with
              | some (r7, actions) =>
                some (r7, .Flip ⟨index, enabled, label, loop, actions⟩)
              | none => none
            | none => none
          | none => none
        | none => none
      | none => none
    | none => none
  | none => none

/-- Is the marker name one of the five known names? -/
def is_known_name (name : Bytes) : Bool :=
  name == nmBPMLOCK || name == nmCOLOR || name == nmCUE || name == nmLOOP || name == nmFLIP

/-- The body parser a known marker name dispatches to (the `match` in
`markers2::take_marker`); only meaningful when `is_known_name` holds. -/
def known_body (name data : Bytes) : Option (Bytes × Marker) :=
  if name = nmBPMLOCK then take_bpmlock_marker data
  else if name = nmCOLOR then take_color_marker data
  else if name = nmCUE then take_cue_marker data
  else if name = nmLOOP then take_loop_marker data
  else take_flip_marker data

/-- `markers2::take_marker`: name, `u32` length, that many data bytes;
known names parse their body with `all_consuming`, unknown names are
preserved verbatim. -/
def take_marker (s : Bytes) : Option (Bytes × Marker) :=
  match take_marker_name s with
  | some (r1, name) =>
    match take_u32be r1 with
    | some (r2, len) =>
      match takeExact len r2 with
      | some (r3, data) =>
        if is_known_name name then
          match known_body name data with
          | some ([], m) => some (r3, m)
          | _ => none
        else some (r3, .Unknown ⟨name, data⟩)
      | none => none
    | none => none
  | none => none

/-- `many0(take_marker)`, fuelled: collect markers until one fails; every
successful `take_marker` consumes at least one byte, so the fuel
`input.length + 1` used below never runs out. -/
def take_markers_go : Nat → Bytes → Bytes × List Marker
  | 0, s => (s, [])
  | fuel + 1, s =>
    match take_marker s with
    | none => (s, [])
    | some (r, m) =>
      match take_markers_go fuel r with
      | (r', ms) => (r', m :: ms)

/-- `markers2::parse_markers2_content`: version then `many0(take_marker)`. -/
def parse_markers2_content (s : Bytes) : Option (Bytes × Markers2Content) :=
  match take_version s with
  | some (r, v) =>
    match take_markers_go (r.length + 1) r with
    | (r', ms) => some (r', ⟨v, ms⟩)
  | none => none

/-- `markers2::take_nullbytes`: drop leading null bytes. -/
def take_nullbytes (s : Bytes) : Bytes := s.dropWhile (fun x => x == 0)

/-- Outcome of `markers2::take_markers2` (a nom parser that may also panic
through `decode_base64_chunks`'s `unwrap`). -/
inductive M2Out where
  | ok (rest : Bytes) (m : Markers2)
  | err
  | panic
deriving DecidableEq, Repr

/-- `markers2::take_markers2`: outer version, base64 chunks, null padding,
chunk decoding, then the inner content parse (whose leftover is discarded). -/
def take_markers2 (s : Bytes) : M2Out :=
  match take_version s with
  | none => .err
  | some (r1, v) =>
    match take_base64_chunks r1 with
    | none => .err
    | some (r2, chunks) =>
      let r3 := take_nullbytes r2
      match decode_base64_chunks chunks with
      | .err => .err
      | .panic => .panic
      | .ok d =>
        match parse_markers2_content d with
        | none => .err
        | some (_, content) => .ok r3 ⟨some v, s.length, content⟩

/-- Outcome of a top-level `Tag::parse` (a nom parser plus possible panic). -/
inductive ParseOut (α : Type) where
  | ok (a : α)
  | err
  | panic
deriving DecidableEq, Repr

/-- `Markers2::parse` (via `Tag::parse`):
`all_consuming(take_markers2)`. -/
def Markers2.parse (s : Bytes) : ParseOut Markers2 :=
  match take_markers2 s with
  | .ok [] m => .ok m
  | .ok _ _ => .err
  | .err => .err
  | .panic => .panic

/-! ## `Markers2` serialisation (from `src/tag/markers2.rs`); each writer
returns the bytes it emits and the byte count it reports (`io::Write` on a
`Vec`/`Cursor` always writes fully, so a plain write reports its length). -/

/-- `markers2::write_bool`. -/
def write_bool (b : Bool) : Bytes := [if b then 1 else 0]

/-- `markers2::write_bpmlock_marker`. -/
def write_bpmlock_marker (m : BPMLockMarker) : Bytes :=
  nmBPMLOCK ++ [0] ++ beBytes32 1 ++ write_bool m.is_locked

/-- `markers2::write_color_marker`. -/
def write_color_marker (m : TrackColorMarker) : Bytes :=
  nmCOLOR ++ [0] ++ beBytes32 4 ++ [0] ++ write_color m.color

/-- `markers2::write_cue_marker`: declared size `13 + label.len`. -/
def write_cue_marker (m : Cue) : Bytes :=
  nmCUE ++ [0] ++ beBytes32 (13 + m.label.length) ++ [0] ++ [m.index] ++
    beBytes32 m.position_millis ++ [0] ++ write_color m.color ++ [0, 0] ++ m.label ++ [0]

/-- `markers2::write_loop_marker`: declared size `21 + label.len`. -/
def write_loop_marker (m : Loop) : Bytes :=
  nmLOOP ++ [0] ++ beBytes32 (21 + m.label.length) ++ [0] ++ [m.index] ++
    beBytes32 m.start_position_millis ++ beBytes32 m.end_position_millis ++
    [255, 255, 255, 255, 0] ++ write_color m.color ++ [0] ++ write_bool m.is_locked ++
    m.label ++ [0]

/-- `markers2::write_flip_marker_action`. -/
def write_flip_marker_action : FlipAction → Bytes
  | .Jump a => [0] ++ beBytes32 16 ++ a.source_position_seconds ++ a.target_position_seconds
  | .Censor a =>
    [1] ++ beBytes32 24 ++ a.start_position_seconds ++ a.end_position_seconds ++ a.speed_factor
  | .Unknown a => [a.id] ++ beBytes32 a.data.length ++ a.data

/-- The per-action contribution to the declared `FLIP` size in
`markers2::write_flip_marker` (note: `data.len + 1` for unknown actions,
although `write_flip_marker_action` emits `data.len + 5` bytes for them). -/
def flip_action_declared_size : FlipAction → Nat
  | .Jump _ => 21
  | .Censor _ => 29
  | .Unknown a => a.data.length + 1

/-- `markers2::write_flip_marker`: the emitted bytes, and the byte count the
function returns.  In the action loop the count accumulator is *assigned*
(`bytes_written = write_flip_marker_action(..)?`), so with a non-empty
action list the reported count is just the last action's length. -/
def write_flip_marker (m : Flip) : Bytes × Nat :=
  let declared := 9 + m.label.length +
    (m.actions.map flip_action_declared_size).sum
  let header := nmFLIP ++ [0] ++ beBytes32 declared ++ [0] ++ [m.index] ++
    write_bool m.is_enabled ++ m.label ++ [0] ++ write_bool m.is_loop ++
    beBytes32 m.actions.length
  let body := (m.actions.map write_flip_marker_action).flatten
  let reported :=
    match m.actions.getLast? with
    | some a => (write_flip_marker_action a).length
    | none => header.length
  (header ++ body, reported)

/-- `markers2::write_marker`: bytes emitted and count reported. -/
def write_marker : Marker → Bytes × Nat
  | .Unknown m =>
    let b := m.name ++ [0] ++ beBytes32 m.data.length ++ m.data
    (b, b.length)
  | .BPMLock m => let b := write_bpmlock_marker m; (b, b.length)
  | .Color m => let b := write_color_marker m; (b, b.length)
  | .Cue m => let b := write_cue_marker m; (b, b.length)
  | .Loop m => let b := write_loop_marker m; (b, b.length)
  | .Flip m => write_flip_marker m

/-- `markers2::write_markers2_content`: version then each marker; the
reported count sums the markers' reported counts. -/
def write_markers2_content (c : Markers2Content) : Bytes × Nat :=
  (write_version c.version ++ (c.markers.map (fun m => (write_marker m).1)).flatten,
    2 + (c.markers.map (fun m => (write_marker m).2)).sum)

/-- Fuelled splitter for `chunks54`; the fuel `d.length` used there never
runs out because every recursive step removes 54 bytes. -/
def chunks54F : Nat → Bytes → List Bytes
  | _, [] => []
  | 0, d => [d]
  | fuel + 1, b :: t =>
    if 54 < (b :: t).length then (b :: t).take 54 :: chunks54F fuel ((b :: t).drop 54)
    else [b :: t]

/-- Data chunks of at most 54 bytes (54 raw bytes encode to 72 base64
characters, so this reproduces 72-character line wrapping of the encoded
stream: 72 is a multiple of 4, and splitting a base64 stream at multiples of
4 characters is splitting the data at multiples of 3 bytes). -/
def chunks54 (d : Bytes) : List Bytes := chunks54F d.length d

/-- Join byte-string lines with `'\n'` (byte 10) separators. -/
def joinNL : List Bytes → Bytes
  | [] => []
  | [l] => l
  | l :: ls => l ++ 10 :: joinNL ls

/-- Modelled from the spec: `enveloped::base64_encode` (the `format` module
is not under `src/`): "standard base64 alphabet, no padding as Serato emits
it", "line-wrapped into ≤72-byte chunks separated by `\n`, terminated by a
final `\x00`"; returns the bytes written (the reported count is their
length). -/
def base64_encode (d : Bytes) : Bytes :=
  joinNL ((chunks54 d).map b64EncodeNoPad) ++ [0]

/-- Bytes before the first `0x00` (or the whole string when there is none). -/
def takeTillZero : Bytes → Bytes
  | [] => []
  | 0 :: _ => []
  | b :: t => b :: takeTillZero t

/-- Split a byte string on `'\n'` (byte 10). -/
def splitNL : Bytes → List Bytes
  | [] => [[]]
  | 10 :: t => [] :: splitNL t
  | b :: t =>
    match splitNL t with
    | l :: ls => (b :: l) :: ls
    | [] => [[b]]

/-- Drop trailing `'='` (byte 61) padding characters. -/
def dropPadEq (l : Bytes) : Bytes := (l.reverse.dropWhile (fun x => x == 61)).reverse

/-- Modelled from the spec: `enveloped::base64_decode`: the value is base64
text in "chunks up to 72 base64 chars separated by `\n`, terminated by
`\x00`, with trailing `\x00` padding"; "decoding must also accept inputs
missing their final `=` padding". -/
def base64_decode (s : Bytes) : Except Unit Bytes :=
  let lines := splitNL (takeTillZero s)
  lines.foldr
    (fun l acc =>
      match acc with
      | .error e => .error e
      | .ok rest =>
        if 72 < l.length then .error ()
        else
          match b64_decode_lenient (dropPadEq l) with
          | .ok d => .ok (d ++ rest)
          | .error _ => .error ())
    (.ok [])

/-- `markers2::write_markers2` (the generic `Tag::write`): fails when
`version` is `None`; otherwise version bytes, enveloped base64 of the
content, and null padding up to the recorded `size`.  Returns the bytes and
the reported count (`write_markers2_content`'s count is discarded by the
code; the content bytes go through a `Cursor` buffer). -/
def write_markers2 (m : Markers2) : Option (Bytes × Nat) :=
  match m.version with
  | none => none
  | some v =>
    let enc := base64_encode (write_markers2_content m.content).1
    let bw := 2 + enc.length
    let pad := m.size - bw
    some (write_version v ++ enc ++ List.replicate pad 0, bw + pad)

/-- `Markers2::parse_ogg` (`ogg::OggTag` impl in `markers2.rs`): enveloped
base64 decode of the whole input, then the inner content parse; the version
is always `None`. -/
def Markers2.parse_ogg (s : Bytes) : ParseOut Markers2 :=
  match base64_decode s with
  | .error _ => .err
  | .ok d =>
    match parse_markers2_content d with
    | some (_, content) => .ok ⟨none, s.length, content⟩
    | none => .err

/-! ## `Analysis` (from `src/tag/analysis.rs`) -/

/-- The `Serato Analysis` tag value (`analysis::Analysis`). -/
structure Analysis where
  version : Version
deriving DecidableEq, Repr

/-- `analysis::take_analysis`: just a version. -/
def take_analysis (s : Bytes) : Option (Bytes × Analysis) :=
  match take_version s with
  | some (r, v) => some (r, ⟨v⟩)
  | none => none

/-- `Analysis::parse`: `all_consuming(take_analysis)`. -/
def Analysis.parse (s : Bytes) : ParseOut Analysis :=
  match take_analysis s with
  | some ([], a) => .ok a
  | _ => .err

/-- ASCII decimal digit. -/
def isDigitB (b : Nat) : Bool := 48 ≤ b && b ≤ 57

/-- `analysis::take_ascii_u8`: a run of ASCII digits parsed with
`str::parse::<u8>` (fails when empty or above 255). -/
def take_ascii_u8 (s : Bytes) : Option (Bytes × Nat) :=
  let digits := s.takeWhile isDigitB
  let rest := s.dropWhile isDigitB
  if digits = [] then none
  else
    let v := digits.foldl (fun acc d => acc * 10 + (d - 48)) 0
    if v ≤ 255 then some (rest, v) else none

/-- `analysis::take_analysis_ogg`: ASCII `"major.minor"`. -/
def take_analysis_ogg (s : Bytes) : Option (Bytes × Analysis) :=
  match take_ascii_u8 s with
  | some (r1, major) =>
    match take_tag [46] r1 with
    | some (r2, _) =>
      match take_ascii_u8 r2 with
      | some (r3, minor) => some (r3, ⟨⟨major, minor⟩⟩)
      | none => none
    | none => none
  | none => none

/-- `Analysis::parse_ogg`: `all_consuming(take_analysis_ogg)`. -/
def Analysis.parse_ogg (s : Bytes) : ParseOut Analysis :=
  match take_analysis_ogg s with
  | some ([], a) => .ok a
  | _ => .err

/-! ## `RelVolAd` (from `src/tag/relvolad.rs`) -/

/-- The `Serato RelVolAd` tag value (`relvolad::RelVolAd`). -/
structure RelVolAd where
  version : Version
deriving DecidableEq, Repr

/-- `relvolad::take_relvolad`: a version then the literal `\x01\x00\x00`. -/
def take_relvolad (s : Bytes) : Option (Bytes × RelVolAd) :=
  match take_version s with
  | some (r1, v) =>
    match take_tag [1, 0, 0] r1 with
    | some (r2, _) => some (r2, ⟨v⟩)
    | none => none
  | none => none

/-- `RelVolAd::parse`: `all_consuming(take_relvolad)`. -/
def RelVolAd.parse (s : Bytes) : ParseOut RelVolAd :=
  match take_relvolad s with
  | some ([], a) => .ok a
  | _ => .err

/-! ## Well-formedness invariants established by the parsers -/

/-- Channel bytes of a colour are genuine bytes. -/
def WFColor (c : Color) : Prop := c.red < 256 ∧ c.green < 256 ∧ c.blue < 256

/-- A label as produced by `take_utf8`: genuine bytes, no interior null,
valid UTF-8. -/
def WFLabel (l : Bytes) : Prop := BytesWF l ∧ 0 ∉ l ∧ validUtf8 l = true

/-- Invariants of a parsed flip action. -/
def WFAction : FlipAction → Prop
  | .Jump a =>
    a.source_position_seconds.length = 8 ∧ a.target_position_seconds.length = 8 ∧
      BytesWF a.source_position_seconds ∧ BytesWF a.target_position_seconds
  | .Censor a =>
    a.start_position_seconds.length = 8 ∧ a.end_position_seconds.length = 8 ∧
      a.speed_factor.length = 8 ∧ BytesWF a.start_position_seconds ∧
      BytesWF a.end_position_seconds ∧ BytesWF a.speed_factor
  | .Unknown a => a.id < 256 ∧ a.id ≠ 0 ∧ a.id ≠ 1 ∧ BytesWF a.data ∧ a.data.length < 2 ^ 32

/-- Number of bytes a parsed flip action occupied on the wire (header
included). -/
def flip_action_actual_size : FlipAction → Nat
  | .Jump _ => 21
  | .Censor _ => 29
  | .Unknown a => a.data.length + 5

/-- Invariants of a parsed marker. -/
def WFMarker : Marker → Prop
  | .Unknown m =>
    m.name ≠ [] ∧ 0 ∉ m.name ∧ validUtf8 m.name = true ∧ BytesWF m.name ∧
      is_known_name m.name = false ∧ BytesWF m.data ∧ m.data.length < 2 ^ 32
  | .Color m => WFColor m.color
  | .BPMLock _ => True
  | .Cue m =>
    m.index < 256 ∧ m.position_millis < 2 ^ 32 ∧ WFColor m.color ∧ WFLabel m.label ∧
      13 + m.label.length < 2 ^ 32
  | .Loop m =>
    m.index < 256 ∧ m.start_position_millis < 2 ^ 32 ∧ m.end_position_millis < 2 ^ 32 ∧
      WFColor m.color ∧ WFLabel m.label ∧ 21 + m.label.length < 2 ^ 32
  | .Flip m =>
    m.index < 256 ∧ WFLabel m.label ∧ m.actions.length < 2 ^ 32 ∧
      (∀ a ∈ m.actions, WFAction a) ∧
      9 + m.label.length + (m.actions.map flip_action_declared_size).sum < 2 ^ 32

/-- Invariants of parsed tag content. -/
def WFContent (c : Markers2Content) : Prop :=
  c.version.major < 256 ∧ c.version.minor < 256 ∧ ∀ m ∈ c.markers, WFMarker m

/-- Is this flip action the `Unknown` variant? -/
def FlipAction.isUnknownB : FlipAction → Bool
  | .Unknown _ => true
  | _ => false

/-- Does this marker avoid `Unknown` flip actions?  (Trivially true for
non-flip markers.) -/
def marker_no_unknown : Marker → Bool
  | .Flip f => f.actions.all fun a => ! a.isUnknownB
  | _ => true

/-- No flip marker of the content carries an `Unknown` action. -/
def contentNoUnknownB (c : Markers2Content) : Bool :=
  c.markers.all marker_no_unknown

/-! ## Primitive parser lemmas -/

theorem takeExact_append (xs r : Bytes) : takeExact xs.length (xs ++ r) = some (r, xs) := by
  induction xs with
  | nil => rfl
  | cons b t ih => simp [takeExact, ih]

theorem takeExact_sound {n : Nat} {s r xs : Bytes} (h : takeExact n s = some (r, xs)) :
    s = xs ++ r ∧ xs.length = n := by
  induction n generalizing s xs r with
  | zero => simp [takeExact] at h; simp [h]
  | succ n ih =>
    match s with
    | [] => simp [takeExact] at h
    | b :: t =>
      simp only [takeExact] at h
      cases he : takeExact n t with
      | none => rw [he] at h; simp at h
      | some p =>
        rw [he] at h
        obtain ⟨r', xs'⟩ := p
        simp at h
        obtain ⟨hr, hxs⟩ := h
        obtain ⟨h1, h2⟩ := ih he
        subst hxs hr h1
        simp [h2]

theorem take_u32be_beBytes32 {n : Nat} (h : n < 2 ^ 32) (r : Bytes) :
    take_u32be (beBytes32 n ++ r) = some (r, n) := by
  have e : ((n / 2 ^ 24 % 256 * 256 + n / 2 ^ 16 % 256) * 256 + n / 2 ^ 8 % 256) * 256 +
      n % 256 = n := by omega
  simp only [beBytes32, List.cons_append, List.nil_append, take_u32be, e]

theorem take_u32be_sound {s r : Bytes} {v : Nat} (h : take_u32be s = some (r, v))
    (hwf : BytesWF s) : v < 2 ^ 32 ∧ ∃ pre : Bytes, s = pre ++ r ∧ pre.length = 4 := by
  match s with
  | a :: b :: c :: d :: t =>
    simp only [take_u32be, Option.some.injEq, Prod.mk.injEq] at h
    obtain ⟨h1, h2⟩ := h
    subst h1 h2
    refine ⟨?_, [a, b, c, d], by simp, rfl⟩
    have ha := hwf a (by simp)
    have hb := hwf b (by simp)
    have hc := hwf c (by simp)
    have hd := hwf d (by simp)
    omega
  | [] => simp [take_u32be] at h
  | [a] => simp [take_u32be] at h
  | [a, b] => simp [take_u32be] at h
  | [a, b, c] => simp [take_u32be] at h

theorem take_tag_append (lit r : Bytes) : take_tag lit (lit ++ r) = some (r, lit) := by
  induction lit with
  | nil => rfl
  | cons b t ih => simp [take_tag, ih]

theorem take_tag_sound {lit s r x : Bytes} (h : take_tag lit s = some (r, x)) :
    x = lit ∧ s = lit ++ r := by
  induction lit generalizing s x with
  | nil => simp [take_tag] at h; simp [h]
  | cons l lt ih =>
    match s with
    | [] => simp [take_tag] at h
    | b :: t =>
      simp only [take_tag] at h
      by_cases hb : b = l
      · subst hb
        simp only [if_pos rfl] at h
        cases he : take_tag lt t with
        | none => rw [he] at h; simp at h
        | some p =>
          rw [he] at h
          obtain ⟨r', xs'⟩ := p
          simp at h
          obtain ⟨hr, hx⟩ := h
          subst hr hx
          obtain ⟨h1, h2⟩ := ih he
          subst h1 h2
          simp
      · rw [if_neg hb] at h; simp at h

theorem splitAtZero_append {l : Bytes} (hl : 0 ∉ l) (r : Bytes) :
    splitAtZero (l ++ 0 :: r) = some (l, r) := by
  induction l with
  | nil => rfl
  | cons b t ih =>
    have hb : b ≠ 0 := fun h => hl (h ▸ List.mem_cons_self b t)
    have ht : 0 ∉ t := fun h => hl (List.mem_cons_of_mem b h)
    simp [splitAtZero, hb, ih ht]

theorem splitAtZero_sound {s pre r : Bytes} (h : splitAtZero s = some (pre, r)) :
    s = pre ++ 0 :: r ∧ 0 ∉ pre := by
  induction s generalizing pre with
  | nil => simp [splitAtZero] at h
  | cons b t ih =>
    simp only [splitAtZero] at h
    by_cases hb : b = 0
    · subst hb
      simp at h
      obtain ⟨h1, h2⟩ := h
      subst h1 h2
      simp
    · rw [if_neg hb] at h
      cases he : splitAtZero t with
      | none => rw [he] at h; simp at h
      | some p =>
        rw [he] at h
        obtain ⟨pre', r'⟩ := p
        simp at h
        obtain ⟨h1, h2⟩ := h
        subst h2
        obtain ⟨h3, h4⟩ := ih he
        subst h1
        constructor
        · simp [h3]
        · simp only [List.mem_cons]
          rintro (h5 | h5)
          · exact hb h5.symm
          · exact h4 h5

theorem take_utf8_append {l : Bytes} (hl : 0 ∉ l) (hu : validUtf8 l = true) (r : Bytes) :
    take_utf8 (l ++ 0 :: r) = some (r, l) := by
  simp [take_utf8, splitAtZero_append hl, hu]

theorem take_utf8_sound {s r pre : Bytes} (h : take_utf8 s = some (r, pre)) :
    s = pre ++ 0 :: r ∧ 0 ∉ pre ∧ validUtf8 pre = true := by
  simp only [take_utf8] at h
  cases he : splitAtZero s with
  | none => rw [he] at h; simp at h
  | some p =>
    rw [he] at h
    obtain ⟨pre', r'⟩ := p
    by_cases hv : validUtf8 pre' = true
    · simp [hv] at h
      obtain ⟨h1, h2⟩ := h
      subst h1 h2
      obtain ⟨h3, h4⟩ := splitAtZero_sound he
      exact ⟨h3, h4, hv⟩
    · simp [hv] at h

/-! ## Base64 lemmas -/

theorem b64DecChar_encChar_fin : ∀ k : Fin 64, b64DecChar (b64EncChar k.val) = some k.val := by
  decide

theorem b64DecChar_encChar {k : Nat} (hk : k < 64) : b64DecChar (b64EncChar k) = some k :=
  b64DecChar_encChar_fin ⟨k, hk⟩

theorem b64EncChar_isb64_fin : ∀ k : Fin 64, is_base64 (b64EncChar k.val) = true := by
  decide

theorem b64EncChar_isb64 {k : Nat} (hk : k < 64) : is_base64 (b64EncChar k) = true :=
  b64EncChar_isb64_fin ⟨k, hk⟩


theorem b64DecChar_lt {c v : Nat} (h : b64DecChar c = some v) : v < 64 := by
  by_cases h1 : 65 ≤ c ∧ c ≤ 90
  · simp [b64DecChar, h1] at h; omega
  by_cases h2 : 97 ≤ c ∧ c ≤ 122
  · simp [b64DecChar, h1, h2] at h; omega
  by_cases h3 : 48 ≤ c ∧ c ≤ 57
  · simp [b64DecChar, h1, h2, h3] at h; omega
  by_cases h4 : c = 43
  · simp [b64DecChar, h1, h2, h3, h4] at h; omega
  by_cases h5 : c = 47
  · simp [b64DecChar, h1, h2, h3, h4, h5] at h; omega
  simp [b64DecChar, h1, h2, h3, h4, h5] at h

theorem is_base64_ne {c : Nat} (h : is_base64 c = true) : c ≠ 0 ∧ c ≠ 10 := by
  simp only [is_base64, Bool.or_eq_true, Bool.and_eq_true, decide_eq_true_eq,
    beq_iff_eq] at h
  omega

theorem b64DecodeCore_bounds : ∀ (s d : Bytes), b64DecodeCore s = .ok d → BytesWF d
  | [], _, h => by
    simp only [b64DecodeCore, Except.ok.injEq] at h
    subst h; intro x hx; simp at hx
  | [_], _, h => by simp [b64DecodeCore] at h
  | [w, x], d, h => by
    simp only [b64DecodeCore] at h
    cases hw : b64DecChar w <;> cases hx : b64DecChar x <;> simp only [hw, hx] at h
    · simp at h
    · simp at h
    · simp at h
    next v1 v2 =>
      have h1 := b64DecChar_lt hw
      have h2 := b64DecChar_lt hx
      split at h
      · simp only [Except.ok.injEq] at h
        subst h; intro y hy; simp at hy; omega
      · simp at h
  | [w, x, y], d, h => by
    simp only [b64DecodeCore] at h
    cases hw : b64DecChar w <;> cases hx : b64DecChar x <;> cases hy : b64DecChar y <;>
      simp only [hw, hx, hy] at h
    case some.some.some v1 v2 v3 =>
      have h1 := b64DecChar_lt hw
      have h2 := b64DecChar_lt hx
      have h3 := b64DecChar_lt hy
      split at h
      · simp only [Except.ok.injEq] at h
        subst h; intro z hz; simp at hz
        rcases hz with hz | hz <;> omega
      · simp at h
    all_goals simp at h
  | w :: x :: y :: z :: a :: t, d, h => by
    simp only [b64DecodeCore] at h
    cases hw : b64DecChar w <;> cases hx : b64DecChar x <;> cases hy : b64DecChar y <;>
      cases hz : b64DecChar z <;> simp only [hw, hx, hy, hz] at h
    case some.some.some.some v1 v2 v3 v4 =>
      have h1 := b64DecChar_lt hw
      have h2 := b64DecChar_lt hx
      have h3 := b64DecChar_lt hy
      have h4 := b64DecChar_lt hz
      cases he : b64DecodeCore (a :: t) with
      | ok rest =>
        rw [he] at h
        simp only [Except.ok.injEq] at h
        subst h
        have ihr := b64DecodeCore_bounds (a :: t) rest he
        intro u hu
        simp only [List.mem_cons] at hu
        rcases hu with hu | hu | hu | hu
        · omega
        · omega
        · omega
        · exact ihr u hu
      | error e => rw [he] at h; simp at h
    all_goals simp at h
  | [w, x, y, z], d, h => by
    simp only [b64DecodeCore] at h
    cases hw : b64DecChar w <;> cases hx : b64DecChar x <;> cases hy : b64DecChar y <;>
      cases hz : b64DecChar z <;> simp only [hw, hx, hy, hz] at h
    case some.some.some.some v1 v2 v3 v4 =>
      have h1 := b64DecChar_lt hw
      have h2 := b64DecChar_lt hx
      have h3 := b64DecChar_lt hy
      have h4 := b64DecChar_lt hz
      simp only [Except.ok.injEq] at h
      subst h
      intro u hu
      simp only [List.mem_cons] at hu
      rcases hu with hu | hu | hu | hu
      · omega
      · omega
      · omega
      · simp at hu
    all_goals simp at h

theorem bytesWF_append {l r : Bytes} : BytesWF (l ++ r) ↔ BytesWF l ∧ BytesWF r := by
  simp [BytesWF, List.mem_append, or_imp, forall_and]

theorem bytesWF_cons {a : Nat} {t : Bytes} : BytesWF (a :: t) ↔ a < 256 ∧ BytesWF t := by
  simp [BytesWF, List.mem_cons, or_imp, forall_and]

theorem bytesWF_nil : BytesWF [] := by intro x hx; simp at hx

theorem b64EncodeNoPad_length : ∀ g : Bytes, (b64EncodeNoPad g).length = (4 * g.length + 2) / 3
  | [] => rfl
  | [_] => by norm_num [b64EncodeNoPad]
  | [_, _] => by norm_num [b64EncodeNoPad]
  | a :: b :: c :: t => by
    have ih := b64EncodeNoPad_length t
    simp only [b64EncodeNoPad, List.length_cons, ih]
    omega

theorem b64EncodeNoPad_all : ∀ g : Bytes, BytesWF g → ∀ x ∈ b64EncodeNoPad g, is_base64 x = true
  | [], _, x, hx => by simp [b64EncodeNoPad] at hx
  | [a], h, x, hx => by
    have ha : a < 256 := h a (by simp)
    simp only [b64EncodeNoPad, List.mem_cons] at hx
    rcases hx with hx | hx | hx
    · exact hx ▸ b64EncChar_isb64 (by omega)
    · exact hx ▸ b64EncChar_isb64 (by omega)
    · simp at hx
  | [a, b], h, x, hx => by
    have ha : a < 256 := h a (by simp)
    have hb : b < 256 := h b (by simp)
    simp only [b64EncodeNoPad, List.mem_cons] at hx
    rcases hx with hx | hx | hx | hx
    · exact hx ▸ b64EncChar_isb64 (by omega)
    · exact hx ▸ b64EncChar_isb64 (by omega)
    · exact hx ▸ b64EncChar_isb64 (by omega)
    · simp at hx
  | a :: b :: c :: d :: t, h, x, hx => by
    have ha : a < 256 := h a (by simp)
    have hb : b < 256 := h b (by simp)
    have hc : c < 256 := h c (by simp)
    have ht : BytesWF (d :: t) := fun y hy => h y (by simp [hy])
    simp only [b64EncodeNoPad, List.mem_cons] at hx
    rcases hx with hx | hx | hx | hx | hx
    · exact hx ▸ b64EncChar_isb64 (by omega)
    · exact hx ▸ b64EncChar_isb64 (by omega)
    · exact hx ▸ b64EncChar_isb64 (by omega)
    · exact hx ▸ b64EncChar_isb64 (by omega)
    · exact b64EncodeNoPad_all (d :: t) ht x hx
  | [a, b, c], h, x, hx => by
    have ha : a < 256 := h a (by simp)
    have hb : b < 256 := h b (by simp)
    have hc : c < 256 := h c (by simp)
    simp only [b64EncodeNoPad, List.mem_cons] at hx
    rcases hx with hx | hx | hx | hx | hx
    · exact hx ▸ b64EncChar_isb64 (by omega)
    · exact hx ▸ b64EncChar_isb64 (by omega)
    · exact hx ▸ b64EncChar_isb64 (by omega)
    · exact hx ▸ b64EncChar_isb64 (by omega)
    · simp [b64EncodeNoPad] at hx

theorem b64_core_encode : ∀ g : Bytes, BytesWF g → b64DecodeCore (b64EncodeNoPad g) = .ok g
  | [], _ => rfl
  | [a], h => by
    have ha : a < 256 := h a (by simp)
    have e1 := b64DecChar_encChar (show a / 4 < 64 by omega)
    have e2 := b64DecChar_encChar (show a % 4 * 16 < 64 by omega)
    have ez : a % 4 * 16 % 16 = 0 := by omega
    have ev : a / 4 * 4 + a % 4 * 16 / 16 = a := by omega
    simp only [b64EncodeNoPad, b64DecodeCore, e1, e2, ez, if_pos, ev]
  | [a, b], h => by
    have ha : a < 256 := h a (by simp)
    have hb : b < 256 := h b (by simp)
    have e1 := b64DecChar_encChar (show a / 4 < 64 by omega)
    have e2 := b64DecChar_encChar (show a % 4 * 16 + b / 16 < 64 by omega)
    have e3 := b64DecChar_encChar (show b % 16 * 4 < 64 by omega)
    have ez : b % 16 * 4 % 4 = 0 := by omega
    have ev1 : a / 4 * 4 + (a % 4 * 16 + b / 16) / 16 = a := by omega
    have ev2 : (a % 4 * 16 + b / 16) % 16 * 16 + b % 16 * 4 / 4 = b := by omega
    simp only [b64EncodeNoPad, b64DecodeCore, e1, e2, e3, ez, if_pos, ev1, ev2]
  | a :: b :: c :: t, h => by
    have ha : a < 256 := h a (by simp)
    have hb : b < 256 := h b (by simp)
    have hc : c < 256 := h c (by simp)
    have ht : BytesWF t := fun y hy => h y (by simp [hy])
    have ih := b64_core_encode t ht
    have e1 := b64DecChar_encChar (show a / 4 < 64 by omega)
    have e2 := b64DecChar_encChar (show a % 4 * 16 + b / 16 < 64 by omega)
    have e3 := b64DecChar_encChar (show b % 16 * 4 + c / 64 < 64 by omega)
    have e4 := b64DecChar_encChar (show c % 64 < 64 by omega)
    have ev1 : a / 4 * 4 + (a % 4 * 16 + b / 16) / 16 = a := by omega
    have ev2 : (a % 4 * 16 + b / 16) % 16 * 16 + (b % 16 * 4 + c / 64) / 4 = b := by omega
    have ev3 : (b % 16 * 4 + c / 64) % 4 * 64 + c % 64 = c := by omega
    match t with
    | [] => simp only [b64EncodeNoPad, b64DecodeCore, e1, e2, e3, e4, ev1, ev2, ev3]
    | d :: t' =>
      have henc : b64EncodeNoPad (a :: b :: c :: d :: t') =
          b64EncChar (a / 4) :: b64EncChar (a % 4 * 16 + b / 16) ::
            b64EncChar (b % 16 * 4 + c / 64) :: b64EncChar (c % 64) ::
            b64EncodeNoPad (d :: t') := rfl
      rw [henc]
      cases he : b64EncodeNoPad (d :: t') with
      | nil =>
        rw [he] at ih
        simp only [b64DecodeCore] at ih ⊢
        simp only [e1, e2, e3, e4]
        simp only [Except.ok.injEq] at ih
        simp only [ih, ev1, ev2, ev3]
      | cons u us =>
        rw [he] at ih
        have hred : b64DecodeCore
            (b64EncChar (a / 4) :: b64EncChar (a % 4 * 16 + b / 16) ::
              b64EncChar (b % 16 * 4 + c / 64) :: b64EncChar (c % 64) :: u :: us) =
            match b64DecChar (b64EncChar (a / 4)), b64DecChar (b64EncChar (a % 4 * 16 + b / 16)),
              b64DecChar (b64EncChar (b % 16 * 4 + c / 64)), b64DecChar (b64EncChar (c % 64)) with
            | some v1, some v2, some v3, some v4 =>
              match b64DecodeCore (u :: us) with
              | .ok rest =>
                .ok ((v1 * 4 + v2 / 16) :: (v2 % 16 * 16 + v3 / 4) :: (v3 % 4 * 64 + v4) :: rest)
              | .error e => .error e
            | _, _, _, _ => .error .invalidByte := rfl
      
        rw [hred, e1, e2, e3, e4, ih]
        show Except.ok ((a / 4 * 4 + (a % 4 * 16 + b / 16) / 16) ::
            ((a % 4 * 16 + b / 16) % 16 * 16 + (b % 16 * 4 + c / 64) / 4) ::
            ((b % 16 * 4 + c / 64) % 4 * 64 + c % 64) :: d :: t') =
          Except.ok (a :: b :: c :: d :: t')
        rw [ev1, ev2, ev3]

theorem b64_lenient_encode (g : Bytes) (h : BytesWF g) :
    b64_decode_lenient (b64EncodeNoPad g) = .ok g := by
  have hl := b64EncodeNoPad_length g
  have hm : (b64EncodeNoPad g).length % 4 ≠ 1 := by rw [hl]; omega
  simp [b64_decode_lenient, hm, b64_core_encode g h]

theorem decodeOneChunk_encode (g : Bytes) (h : BytesWF g) (hle : g.length ≤ 54) :
    decodeOneChunk (b64EncodeNoPad g) = .ok g := by
  have hl := b64EncodeNoPad_length g
  have h72 : ¬ 72 < (b64EncodeNoPad g).length := by rw [hl]; omega
  simp [decodeOneChunk, h72, b64_lenient_encode g h]

theorem chunks54F_flatten : ∀ (fuel : Nat) (d : Bytes), d.length ≤ fuel →
    (chunks54F fuel d).flatten = d
  | fuel, [], _ => by cases fuel <;> rfl
  | 0, b :: t, h => by simp at h
  | fuel + 1, b :: t, h => by
    rw [chunks54F]
    by_cases h54 : 54 < (b :: t).length
    · rw [if_pos h54, List.flatten_cons,
        chunks54F_flatten fuel ((b :: t).drop 54)
          (by simp only [List.length_drop]; simp at h ⊢; omega)]
      exact List.take_append_drop 54 (b :: t)
    · rw [if_neg h54]
      simp

theorem chunks54_flatten (d : Bytes) : (chunks54 d).flatten = d :=
  chunks54F_flatten d.length d (Nat.le_refl _)

theorem chunks54F_mem : ∀ (fuel : Nat) (d : Bytes), d.length ≤ fuel → BytesWF d →
    ∀ g ∈ chunks54F fuel d, BytesWF g ∧ g.length ≤ 54 ∧ g ≠ []
  | fuel, [], _, _ => by cases fuel <;> intro g hg <;> simp [chunks54F] at hg
  | 0, b :: t, h, _ => by simp at h
  | fuel + 1, b :: t, h, hwf => by
    intro g hg
    rw [chunks54F] at hg
    by_cases h54 : 54 < (b :: t).length
    · rw [if_pos h54, List.mem_cons] at hg
      rcases hg with hg | hg
      · subst hg
        refine ⟨fun x hx => hwf x (List.take_subset 54 (b :: t) hx), by simp, ?_⟩
        intro he
        have := congrArg List.length he
        simp only [List.length_take, List.length_nil] at this
        omega
      · exact chunks54F_mem fuel ((b :: t).drop 54)
          (by simp only [List.length_drop]; simp at h ⊢; omega)
          (fun x hx => hwf x (List.drop_subset 54 (b :: t) hx)) g hg
    · rw [if_neg h54] at hg
      simp only [List.mem_singleton] at hg
      subst hg
      exact ⟨hwf, by simp at h54 ⊢; omega, by simp⟩

theorem chunks54_mem (d : Bytes) (hwf : BytesWF d) :
    ∀ g ∈ chunks54 d, BytesWF g ∧ g.length ≤ 54 ∧ g ≠ [] :=
  chunks54F_mem d.length d (Nat.le_refl _) hwf

theorem is_base64_zero : is_base64 0 = false := by decide

theorem is_base64_ten : is_base64 10 = false := by decide

theorem spanB64_append {l : Bytes} (r : Bytes) (hl : ∀ x ∈ l, is_base64 x = true)
    (hr : ∀ b t, r = b :: t → is_base64 b = false) : spanB64 (l ++ r) = (l, r) := by
  induction l with
  | nil =>
    match r with
    | [] => rfl
    | b :: t =>
      have := hr b t rfl
      simp [spanB64, this]
  | cons c cs ih =>
    have hc : is_base64 c = true := hl c (by simp)
    have hcs : ∀ x ∈ cs, is_base64 x = true := fun x hx => hl x (by simp [hx])
    simp [spanB64, hc, ih hcs]

theorem take_base64_chunk_null {l : Bytes} (hne : l ≠ [])
    (hl : ∀ x ∈ l, is_base64 x = true) (rest : Bytes) :
    take_base64_chunk (l ++ 0 :: rest) = some (0 :: rest, l) := by
  have hs := spanB64_append (0 :: rest) hl
    (by intro b t he; cases he; exact is_base64_zero)
  match l with
  | [] => exact absurd rfl hne
  | c :: cs => rw [take_base64_chunk, hs]

theorem take_base64_chunk_newline {l : Bytes} (hne : l ≠ [])
    (hl : ∀ x ∈ l, is_base64 x = true) (rest : Bytes) :
    take_base64_chunk (l ++ 10 :: rest) = some (rest, l) := by
  have hs := spanB64_append (10 :: rest) hl
    (by intro b t he; cases he; exact is_base64_ten)
  match l with
  | [] => exact absurd rfl hne
  | c :: cs => rw [take_base64_chunk, hs]

theorem take_base64_chunks_go_join :
    ∀ (lines : List Bytes) (fuel : Nat) (rest : Bytes),
      (∀ l ∈ lines, l ≠ [] ∧ ∀ x ∈ l, is_base64 x = true) →
      lines.length < fuel →
      take_base64_chunks_go fuel (joinNL lines ++ 0 :: rest) = some (0 :: rest, lines)
  | [], fuel, rest, _, hf => by
    match fuel, hf with
    | f + 1, _ => simp [joinNL, take_base64_chunks_go]
  | [l], fuel, rest, h, hf => by
    obtain ⟨hne, hb⟩ := h l (by simp)
    match fuel, hf with
    | f + 1, hf =>
      match l, hne with
      | c :: cs, _ =>
        have hc0 : c ≠ 0 := (is_base64_ne (hb c (by simp))).1
        obtain ⟨k, hk⟩ := Nat.exists_eq_succ_of_ne_zero hc0
        subst hk
        have hchunk := take_base64_chunk_null (l := (k + 1) :: cs) (by simp) hb rest
        have hf1 : 1 ≤ f := by simp only [List.length_singleton] at hf; omega
        match f, hf1 with
        | f' + 1, _ =>
          simp only [joinNL, List.cons_append, take_base64_chunks_go]
          rw [List.cons_append] at hchunk
          rw [hchunk]
  | l :: l2 :: ls, fuel, rest, h, hf => by
    obtain ⟨hne, hb⟩ := h l (by simp)
    match fuel, hf with
    | f + 1, hf =>
      match l, hne with
      | c :: cs, _ =>
        have hc0 : c ≠ 0 := (is_base64_ne (hb c (by simp))).1
        obtain ⟨k, hk⟩ := Nat.exists_eq_succ_of_ne_zero hc0
        subst hk
        have hchunk := take_base64_chunk_newline (l := (k + 1) :: cs) (by simp) hb
          (joinNL (l2 :: ls) ++ 0 :: rest)
        have ih := take_base64_chunks_go_join (l2 :: ls) f rest
          (fun x hx => h x (by simp [hx])) (by simp at hf ⊢; omega)
        have hj : joinNL (((k + 1) :: cs) :: l2 :: ls) =
            ((k + 1) :: cs) ++ 10 :: joinNL (l2 :: ls) := rfl
        rw [hj]
        have hassoc : (((k + 1) :: cs) ++ 10 :: joinNL (l2 :: ls)) ++ 0 :: rest =
            ((k + 1) :: cs) ++ 10 :: (joinNL (l2 :: ls) ++ 0 :: rest) := by simp
        rw [hassoc, List.cons_append]
        simp only [take_base64_chunks_go]
        rw [List.cons_append] at hchunk
        rw [hchunk]
        simp [ih]

theorem joinNL_length_ge : ∀ lines : List Bytes, (∀ l ∈ lines, l ≠ []) →
    lines.length ≤ (joinNL lines).length
  | [], _ => by simp [joinNL]
  | [l], h => by
    have := h l (by simp)
    simp only [joinNL, List.length_singleton]
    match l, this with
    | c :: cs, _ => simp
  | l :: l2 :: ls, h => by
    have ih := joinNL_length_ge (l2 :: ls) (fun x hx => h x (by simp [hx]))
    have hne := h l (by simp)
    have hl1 : 1 ≤ l.length := by
      match l, hne with
      | c :: cs, _ => simp
    simp only [joinNL, List.length_append, List.length_cons] at ih ⊢
    omega

theorem decode_chunks_map : ∀ gs : List Bytes, (∀ g ∈ gs, BytesWF g ∧ g.length ≤ 54) →
    decode_base64_chunks (gs.map b64EncodeNoPad) = .ok gs.flatten
  | [], _ => rfl
  | g :: gs', h => by
    obtain ⟨hwf, hle⟩ := h g (by simp)
    have ih := decode_chunks_map gs' (fun x hx => h x (by simp [hx]))
    simp only [List.map_cons, decode_base64_chunks, decodeOneChunk_encode g hwf hle, ih,
      List.flatten_cons]

theorem take_nullbytes_replicate (n : Nat) :
    take_nullbytes (0 :: List.replicate n 0) = [] := by
  induction n with
  | zero => rfl
  | succ k ih =>
    simp only [take_nullbytes, List.replicate, List.dropWhile] at ih ⊢
    simp only [beq_self_eq_true] at ih ⊢
    exact ih

/-! ## Write-then-parse lemmas for the inner content -/

theorem take_bool_append (b : Bool) (r : Bytes) :
    take_bool (write_bool b ++ r) = some (r, b) := by
  cases b <;> simp [write_bool, take_bool]

theorem take_color_append (c : Color) (r : Bytes) :
    take_color (write_color c ++ r) = some (r, c) := by
  simp [write_color, take_color]

theorem take_version_append (v : Version) (r : Bytes) :
    take_version (write_version v ++ r) = some (r, v) := by
  simp [write_version, take_version]

theorem take_marker_name_append {name : Bytes} (hne : name ≠ []) (h0 : 0 ∉ name)
    (hu : validUtf8 name = true) (r : Bytes) :
    take_marker_name (name ++ 0 :: r) = some (r, name) := by
  match name, hne with
  | c :: cs, _ =>
    have hc : c ≠ 0 := by
      intro h
      exact h0 (by simp [h])
    obtain ⟨k, hk⟩ := Nat.exists_eq_succ_of_ne_zero hc
    subst hk
    rw [List.cons_append]
    simp only [take_marker_name]
    rw [← List.cons_append, take_utf8_append h0 hu r]
    simp

theorem take_marker_assemble {name body rest : Bytes} {m : Marker}
    (hne : name ≠ []) (h0 : 0 ∉ name) (hu : validUtf8 name = true)
    (hlen : body.length < 2 ^ 32) (hk : is_known_name name = true)
    (hbody : known_body name body = some ([], m)) :
    take_marker (name ++ 0 :: (beBytes32 body.length ++ body ++ rest)) = some (rest, m) := by
  simp only [take_marker, take_marker_name_append hne h0 hu, List.append_assoc,
    take_u32be_beBytes32 hlen, takeExact_append, hk, if_pos, hbody]

theorem take_marker_assemble_unknown {name data rest : Bytes}
    (hne : name ≠ []) (h0 : 0 ∉ name) (hu : validUtf8 name = true)
    (hlen : data.length < 2 ^ 32) (hk : is_known_name name = false) :
    take_marker (name ++ 0 :: (beBytes32 data.length ++ data ++ rest)) =
      some (rest, .Unknown ⟨name, data⟩) := by
  simp only [take_marker, take_marker_name_append hne h0 hu, List.append_assoc,
    take_u32be_beBytes32 hlen, takeExact_append, hk]
  simp

theorem take_tag_zero (r : Bytes) : take_tag [0] (0 :: r) = some (r, [0]) := rfl

theorem take_marker_write_bpmlock (m : BPMLockMarker) (rest : Bytes) :
    take_marker (write_bpmlock_marker m ++ rest) = some (rest, .BPMLock m) := by
  obtain ⟨b⟩ := m
  have hb : write_bpmlock_marker ⟨b⟩ ++ rest =
      nmBPMLOCK ++ 0 :: (beBytes32 (write_bool b).length ++ write_bool b ++ rest) := by
    cases b <;> simp [write_bpmlock_marker, write_bool, nmBPMLOCK, beBytes32]
  rw [hb]
  exact take_marker_assemble (by decide) (by decide) (by decide)
    (by cases b <;> simp [write_bool]) (by decide) (by cases b <;> rfl)

theorem take_marker_write_color (m : TrackColorMarker) (rest : Bytes) :
    take_marker (write_color_marker m ++ rest) = some (rest, .Color m) := by
  obtain ⟨⟨cr, cg, cb⟩⟩ := m
  have hb : write_color_marker ⟨⟨cr, cg, cb⟩⟩ ++ rest =
      nmCOLOR ++ 0 :: (beBytes32 (0 :: write_color ⟨cr, cg, cb⟩).length ++
        (0 :: write_color ⟨cr, cg, cb⟩) ++ rest) := by
    simp [write_color_marker, write_color, nmCOLOR, beBytes32]
  rw [hb]
  exact take_marker_assemble (by decide) (by decide) (by decide)
    (by simp [write_color]) (by decide) rfl

theorem take_tag_zz (r : Bytes) : take_tag [0, 0] (0 :: 0 :: r) = some (r, [0, 0]) := rfl

theorem known_body_cue (data : Bytes) : known_body nmCUE data = take_cue_marker data := by
  simp [known_body, nmCUE, nmBPMLOCK, nmCOLOR]

theorem known_body_loop (data : Bytes) : known_body nmLOOP data = take_loop_marker data := by
  simp [known_body, nmLOOP, nmBPMLOCK, nmCOLOR, nmCUE]

theorem known_body_flip (data : Bytes) : known_body nmFLIP data = take_flip_marker data := by
  simp [known_body, nmFLIP, nmBPMLOCK, nmCOLOR, nmCUE, nmLOOP]

theorem take_marker_write_cue (m : Cue) (h : WFMarker (.Cue m)) (rest : Bytes) :
    take_marker (write_cue_marker m ++ rest) = some (rest, .Cue m) := by
  obtain ⟨idx, pos, ⟨cr, cg, cb⟩, label⟩ := m
  have h' : idx < 256 ∧ pos < 2 ^ 32 ∧ WFColor ⟨cr, cg, cb⟩ ∧ WFLabel label ∧
      13 + label.length < 2 ^ 32 := h
  obtain ⟨hidx, hpos, hcol, ⟨hlwf, hl0, hlu⟩, hsz⟩ := h'
  have hbody : take_cue_marker
      (0 :: idx :: (beBytes32 pos ++ 0 :: cr :: cg :: cb :: 0 :: 0 :: (label ++ 0 :: []))) =
      some ([], .Cue ⟨idx, pos, ⟨cr, cg, cb⟩, label⟩) := by
    simp only [take_cue_marker, take_tag_zero, take_u8, List.append_assoc, List.cons_append,
      take_u32be_beBytes32 hpos, take_color, take_tag_zz, take_utf8_append hl0 hlu]
  have hlen : (0 :: idx :: (beBytes32 pos ++
      0 :: cr :: cg :: cb :: 0 :: 0 :: (label ++ 0 :: []))).length = 13 + label.length := by
    simp [beBytes32]
    omega
  have hb : write_cue_marker ⟨idx, pos, ⟨cr, cg, cb⟩, label⟩ ++ rest =
      nmCUE ++ 0 :: (beBytes32 (0 :: idx :: (beBytes32 pos ++
        0 :: cr :: cg :: cb :: 0 :: 0 :: (label ++ 0 :: []))).length ++
        (0 :: idx :: (beBytes32 pos ++ 0 :: cr :: cg :: cb :: 0 :: 0 :: (label ++ 0 :: []))) ++
        rest) := by
    rw [hlen]
    simp [write_cue_marker, write_color, nmCUE]
  rw [hb]
  refine take_marker_assemble (by decide) (by decide) (by decide) ?_ (by decide) ?_
  · rw [hlen]; omega
  · rw [known_body_cue]
    exact hbody

theorem take_tag_ffff (r : Bytes) :
    take_tag [255, 255, 255, 255] (255 :: 255 :: 255 :: 255 :: r) =
      some (r, [255, 255, 255, 255]) := rfl

theorem take_marker_write_loop (m : Loop) (h : WFMarker (.Loop m)) (rest : Bytes) :
    take_marker (write_loop_marker m ++ rest) = some (rest, .Loop m) := by
  obtain ⟨idx, sp, ep, ⟨cr, cg, cb⟩, locked, label⟩ := m
  have h' : idx < 256 ∧ sp < 2 ^ 32 ∧ ep < 2 ^ 32 ∧ WFColor ⟨cr, cg, cb⟩ ∧ WFLabel label ∧
      21 + label.length < 2 ^ 32 := h
  obtain ⟨hidx, hsp, hep, hcol, ⟨hlwf, hl0, hlu⟩, hsz⟩ := h'
  have hbody : take_loop_marker
      (0 :: idx :: (beBytes32 sp ++ (beBytes32 ep ++ 255 :: 255 :: 255 :: 255 :: 0 ::
        cr :: cg :: cb :: 0 :: (write_bool locked ++ (label ++ 0 :: []))))) =
      some ([], .Loop ⟨idx, sp, ep, ⟨cr, cg, cb⟩, locked, label⟩) := by
    simp only [take_loop_marker, take_tag_zero, take_u8, List.append_assoc, List.cons_append,
      take_u32be_beBytes32 hsp, take_u32be_beBytes32 hep, take_tag_ffff, take_color,
      take_bool_append, take_utf8_append hl0 hlu]
  have hlen : (0 :: idx :: (beBytes32 sp ++ (beBytes32 ep ++ 255 :: 255 :: 255 :: 255 :: 0 ::
      cr :: cg :: cb :: 0 :: (write_bool locked ++ (label ++ 0 :: []))))).length =
      21 + label.length := by
    cases locked <;> simp [beBytes32, write_bool] <;> omega
  have hb : write_loop_marker ⟨idx, sp, ep, ⟨cr, cg, cb⟩, locked, label⟩ ++ rest =
      nmLOOP ++ 0 :: (beBytes32 (0 :: idx :: (beBytes32 sp ++ (beBytes32 ep ++
        255 :: 255 :: 255 :: 255 :: 0 :: cr :: cg :: cb :: 0 ::
        (write_bool locked ++ (label ++ 0 :: []))))).length ++
        (0 :: idx :: (beBytes32 sp ++ (beBytes32 ep ++ 255 :: 255 :: 255 :: 255 :: 0 ::
        cr :: cg :: cb :: 0 :: (write_bool locked ++ (label ++ 0 :: []))))) ++ rest) := by
    rw [hlen]
    simp [write_loop_marker, write_color, nmLOOP]
  rw [hb]
  refine take_marker_assemble (by decide) (by decide) (by decide) ?_ (by decide) ?_
  · rw [hlen]; omega
  · rw [known_body_loop]
    exact hbody

theorem take_marker_write_unknown (m : UnknownMarker) (h : WFMarker (.Unknown m))
    (rest : Bytes) :
    take_marker ((write_marker (.Unknown m)).1 ++ rest) = some (rest, .Unknown m) := by
  obtain ⟨name, data⟩ := m
  have h' : name ≠ [] ∧ 0 ∉ name ∧ validUtf8 name = true ∧ BytesWF name ∧
      is_known_name name = false ∧ BytesWF data ∧ data.length < 2 ^ 32 := h
  obtain ⟨hne, h0, hu, hnwf, hk, hdwf, hdl⟩ := h'
  have hb : (write_marker (.Unknown ⟨name, data⟩)).1 ++ rest =
      name ++ 0 :: (beBytes32 data.length ++ data ++ rest) := by
    simp [write_marker]
  rw [hb]
  exact take_marker_assemble_unknown hne h0 hu hdl hk

theorem takeExact_self (xs : Bytes) : takeExact xs.length xs = some ([], xs) := by
  have := takeExact_append xs []
  simpa using this

theorem take_flip_action_write : ∀ (a : FlipAction), WFAction a → ∀ r : Bytes,
    take_flip_marker_action (write_flip_marker_action a ++ r) = some (r, a)
  | .Jump ⟨src, tgt⟩, h, r => by
    have h' : src.length = 8 ∧ tgt.length = 8 ∧ BytesWF src ∧ BytesWF tgt := h
    obtain ⟨hs, ht, -, -⟩ := h'
    have hb : write_flip_marker_action (.Jump ⟨src, tgt⟩) ++ r =
        0 :: (beBytes32 16 ++ ((src ++ tgt) ++ r)) := by
      simp [write_flip_marker_action]
    have t0 : takeExact 16 ((src ++ tgt) ++ r) = some (r, src ++ tgt) := by
      have : (src ++ tgt).length = 16 := by simp [hs, ht]
      rw [← this]; exact takeExact_append _ _
    have t1 : takeExact 8 (src ++ tgt) = some (tgt, src) := by
      rw [← hs]; exact takeExact_append _ _
    have t2 : takeExact 8 tgt = some ([], tgt) := by
      rw [← ht]; exact takeExact_self _
    rw [hb]
    simp only [take_flip_marker_action, take_u8,
      take_u32be_beBytes32 (show (16 : Nat) < 2 ^ 32 by omega), t0,
      take_flip_marker_action_jump, t1, t2]
    simp
  | .Censor ⟨b1, b2, b3⟩, h, r => by
    have h' : b1.length = 8 ∧ b2.length = 8 ∧ b3.length = 8 ∧ BytesWF b1 ∧ BytesWF b2 ∧
        BytesWF b3 := h
    obtain ⟨h1, h2, h3, -, -, -⟩ := h'
    have hb : write_flip_marker_action (.Censor ⟨b1, b2, b3⟩) ++ r =
        1 :: (beBytes32 24 ++ ((b1 ++ (b2 ++ b3)) ++ r)) := by
      simp [write_flip_marker_action]
    have t0 : takeExact 24 ((b1 ++ (b2 ++ b3)) ++ r) = some (r, b1 ++ (b2 ++ b3)) := by
      have : (b1 ++ (b2 ++ b3)).length = 24 := by simp [h1, h2, h3]
      rw [← this]; exact takeExact_append _ _
    have t1 : takeExact 8 (b1 ++ (b2 ++ b3)) = some (b2 ++ b3, b1) := by
      rw [← h1]; exact takeExact_append _ _
    have t2 : takeExact 8 (b2 ++ b3) = some (b3, b2) := by
      rw [← h2]; exact takeExact_append _ _
    have t3 : takeExact 8 b3 = some ([], b3) := by
      rw [← h3]; exact takeExact_self _
    rw [hb]
    simp only [take_flip_marker_action, take_u8,
      take_u32be_beBytes32 (show (24 : Nat) < 2 ^ 32 by omega), t0,
      take_flip_marker_action_censor, t1, t2, t3]
    simp
  | .Unknown ⟨id, data⟩, h, r => by
    have h' : id < 256 ∧ id ≠ 0 ∧ id ≠ 1 ∧ BytesWF data ∧ data.length < 2 ^ 32 := h
    obtain ⟨-, h0, h1, -, hlen⟩ := h'
    have hb : write_flip_marker_action (.Unknown ⟨id, data⟩) ++ r =
        id :: (beBytes32 data.length ++ (data ++ r)) := by
      simp [write_flip_marker_action]
    have t0 : takeExact data.length (data ++ r) = some (r, data) := takeExact_append _ _
    rw [hb]
    simp only [take_flip_marker_action, take_u8, take_u32be_beBytes32 hlen, t0,
      if_neg h0, if_neg h1]

theorem take_flip_actions_write : ∀ (as : List FlipAction), (∀ a ∈ as, WFAction a) →
    ∀ r : Bytes,
    take_flip_actions_go as.length ((as.map write_flip_marker_action).flatten ++ r) =
      some (r, as)
  | [], _, r => by simp [take_flip_actions_go]
  | a :: as', h, r => by
    have ih := take_flip_actions_write as' (fun x hx => h x (by simp [hx])) r
    simp only [List.map_cons, List.flatten_cons, List.length_cons, List.append_assoc,
      take_flip_actions_go, take_flip_action_write a (h a (by simp)), ih]

theorem write_flip_action_length (a : FlipAction) (h : WFAction a) :
    (write_flip_marker_action a).length = flip_action_actual_size a := by
  match a with
  | .Jump ⟨src, tgt⟩ =>
    have h' : src.length = 8 ∧ tgt.length = 8 ∧ BytesWF src ∧ BytesWF tgt := h
    simp [write_flip_marker_action, flip_action_actual_size, beBytes32, h'.1, h'.2.1]
  | .Censor ⟨b1, b2, b3⟩ =>
    have h' : b1.length = 8 ∧ b2.length = 8 ∧ b3.length = 8 ∧ BytesWF b1 ∧ BytesWF b2 ∧
        BytesWF b3 := h
    simp [write_flip_marker_action, flip_action_actual_size, beBytes32, h'.1, h'.2.1,
      h'.2.2.1]
  | .Unknown ⟨id, data⟩ =>
    simp [write_flip_marker_action, flip_action_actual_size, beBytes32]

theorem flip_declared_eq_actual (a : FlipAction) (hno : a.isUnknownB = false) :
    flip_action_declared_size a = flip_action_actual_size a := by
  match a with
  | .Jump _ => rfl
  | .Censor _ => rfl
  | .Unknown _ => simp [FlipAction.isUnknownB] at hno

theorem flip_actions_bytes_length : ∀ (as : List FlipAction), (∀ a ∈ as, WFAction a) →
    ((as.map write_flip_marker_action).flatten).length = (as.map flip_action_actual_size).sum
  | [], _ => rfl
  | a :: as', h => by
    have ih := flip_actions_bytes_length as' (fun x hx => h x (by simp [hx]))
    simp only [List.map_cons, List.flatten_cons, List.length_append, List.sum_cons, ih,
      write_flip_action_length a (h a (by simp))]

theorem flip_sizes_eq : ∀ as : List FlipAction, (∀ a ∈ as, FlipAction.isUnknownB a = false) →
    (as.map flip_action_declared_size).sum = (as.map flip_action_actual_size).sum
  | [], _ => rfl
  | a :: as', h => by
    have ih := flip_sizes_eq as' (fun x hx => h x (by simp [hx]))
    simp only [List.map_cons, List.sum_cons, ih, flip_declared_eq_actual a (h a (by simp))]

theorem take_marker_write_flip (f : Flip) (h : WFMarker (.Flip f))
    (hno : marker_no_unknown (.Flip f) = true) (rest : Bytes) :
    take_marker ((write_marker (.Flip f)).1 ++ rest) = some (rest, .Flip f) := by
  obtain ⟨idx, en, label, lp, acts⟩ := f
  have h' : idx < 256 ∧ WFLabel label ∧ acts.length < 2 ^ 32 ∧ (∀ a ∈ acts, WFAction a) ∧
      9 + label.length + (acts.map flip_action_declared_size).sum < 2 ^ 32 := h
  obtain ⟨hidx, ⟨hlwf, hl0, hlu⟩, hcnt, hact, hsz⟩ := h'
  have hnoa : ∀ a ∈ acts, FlipAction.isUnknownB a = false := by
    have : acts.all (fun a => ! a.isUnknownB) = true := hno
    intro a ha
    have := List.all_eq_true.mp this a ha
    simp at this
    exact this
  have hsum : ((acts.map write_flip_marker_action).flatten).length =
      (acts.map flip_action_declared_size).sum := by
    rw [flip_actions_bytes_length acts hact, flip_sizes_eq acts hnoa]
  have hbody : take_flip_marker
      (0 :: idx :: (write_bool en ++ (label ++ 0 :: (write_bool lp ++ (beBytes32 acts.length ++
        (acts.map write_flip_marker_action).flatten))))) =
      some ([], .Flip ⟨idx, en, label, lp, acts⟩) := by
    have hacts : take_flip_actions_go acts.length
        ((acts.map write_flip_marker_action).flatten) = some ([], acts) := by
      have := take_flip_actions_write acts hact []
      simpa using this
    simp only [take_flip_marker, take_tag_zero, take_u8, take_bool_append,
      take_utf8_append hl0 hlu, take_u32be_beBytes32 hcnt, hacts]
  have hlen : (0 :: idx :: (write_bool en ++ (label ++ 0 :: (write_bool lp ++
      (beBytes32 acts.length ++ (acts.map write_flip_marker_action).flatten))))).length =
      9 + label.length + (acts.map flip_action_declared_size).sum := by
    cases en <;> cases lp <;>
      simp [write_bool, beBytes32, hsum] <;> omega
  have hb : (write_marker (.Flip ⟨idx, en, label, lp, acts⟩)).1 ++ rest =
      nmFLIP ++ 0 :: (beBytes32 (0 :: idx :: (write_bool en ++ (label ++ 0 ::
        (write_bool lp ++ (beBytes32 acts.length ++
        (acts.map write_flip_marker_action).flatten))))).length ++
        (0 :: idx :: (write_bool en ++ (label ++ 0 :: (write_bool lp ++
        (beBytes32 acts.length ++ (acts.map write_flip_marker_action).flatten))))) ++
        rest) := by
    rw [hlen]
    simp [write_marker, write_flip_marker, nmFLIP]
  rw [hb]
  refine take_marker_assemble (by decide) (by decide) (by decide) ?_ (by decide) ?_
  · rw [hlen]; omega
  · rw [known_body_flip]
    exact hbody

theorem take_marker_write (m : Marker) (h : WFMarker m) (hno : marker_no_unknown m = true)
    (rest : Bytes) : take_marker ((write_marker m).1 ++ rest) = some (rest, m) := by
  match m with
  | .Unknown u => exact take_marker_write_unknown u h rest
  | .BPMLock b => exact take_marker_write_bpmlock b rest
  | .Color c => exact take_marker_write_color c rest
  | .Cue c => exact take_marker_write_cue c h rest
  | .Loop l => exact take_marker_write_loop l h rest
  | .Flip f => exact take_marker_write_flip f h hno rest

theorem write_marker_ne_nil (m : Marker) (h : WFMarker m) : (write_marker m).1 ≠ [] := by
  match m with
  | .Unknown u =>
    have h' : u.name ≠ [] ∧ 0 ∉ u.name ∧ validUtf8 u.name = true ∧ BytesWF u.name ∧
        is_known_name u.name = false ∧ BytesWF u.data ∧ u.data.length < 2 ^ 32 := h
    simp only [write_marker]
    intro he
    simp only [List.append_eq_nil] at he
    exact h'.1 he.1.1.1
  | .BPMLock b => cases hb : b.is_locked <;> simp [write_marker, write_bpmlock_marker, nmBPMLOCK]
  | .Color c => simp [write_marker, write_color_marker, nmCOLOR]
  | .Cue c => simp [write_marker, write_cue_marker, nmCUE]
  | .Loop l => simp [write_marker, write_loop_marker, nmLOOP]
  | .Flip f => simp [write_marker, write_flip_marker, nmFLIP]

theorem flatten_length_ge : ∀ ls : List Bytes, (∀ l ∈ ls, l ≠ []) →
    ls.length ≤ ls.flatten.length
  | [], _ => by simp
  | l :: ls', h => by
    have ih := flatten_length_ge ls' (fun x hx => h x (by simp [hx]))
    have hne := h l (by simp)
    have : 1 ≤ l.length := by
      match l, hne with
      | c :: cs, _ => simp
    simp only [List.flatten_cons, List.length_cons, List.length_append]
    omega

theorem take_markers_go_write : ∀ (ms : List Marker),
    (∀ m ∈ ms, WFMarker m ∧ marker_no_unknown m = true) → ∀ fuel, ms.length ≤ fuel →
    take_markers_go fuel ((ms.map (fun m => (write_marker m).1)).flatten) = ([], ms)
  | [], _, fuel, _ => by
    match fuel with
    | 0 => rfl
    | f + 1 => simp [take_markers_go, take_marker, take_marker_name, take_utf8, splitAtZero]
  | m :: ms', h, fuel, hf => by
    match fuel, hf with
    | f + 1, hf =>
      obtain ⟨hwf, hno⟩ := h m (by simp)
      have ih := take_markers_go_write ms' (fun x hx => h x (by simp [hx])) f
        (by simp at hf ⊢; omega)
      simp only [List.map_cons, List.flatten_cons, take_markers_go,
        take_marker_write m hwf hno, ih]

theorem parse_content_write (c : Markers2Content) (hwf : WFContent c)
    (hno : contentNoUnknownB c = true) :
    parse_markers2_content (write_markers2_content c).1 = some ([], c) := by
  obtain ⟨v, ms⟩ := c
  have h' : v.major < 256 ∧ v.minor < 256 ∧ ∀ m ∈ ms, WFMarker m := hwf
  have hms : ∀ m ∈ ms, WFMarker m ∧ marker_no_unknown m = true := by
    intro m hm
    refine ⟨h'.2.2 m hm, ?_⟩
    have : ms.all marker_no_unknown = true := hno
    exact List.all_eq_true.mp this m hm
  have hflat : ∀ l ∈ ms.map (fun m => (write_marker m).1), l ≠ [] := by
    intro l hl
    simp only [List.mem_map] at hl
    obtain ⟨m, hm, he⟩ := hl
    exact he ▸ write_marker_ne_nil m (hms m hm).1
  have hfuel : ms.length ≤ (ms.map (fun m => (write_marker m).1)).flatten.length + 1 := by
    have := flatten_length_ge (ms.map (fun m => (write_marker m).1)) hflat
    simp only [List.length_map] at this
    omega
  show parse_markers2_content
      (write_version v ++ (ms.map (fun m => (write_marker m).1)).flatten) = _
  simp only [write_version, List.cons_append, List.nil_append, parse_markers2_content,
    take_version]
  rw [take_markers_go_write ms hms _ hfuel]

theorem beBytes32_wf (n : Nat) : BytesWF (beBytes32 n) := by
  intro x hx
  simp only [beBytes32, List.mem_cons, List.not_mem_nil, or_false] at hx
  rcases hx with h | h | h | h <;> subst h <;> omega

theorem write_bool_wf (b : Bool) : BytesWF (write_bool b) := by
  cases b <;> intro x hx <;> simp [write_bool] at hx <;> omega

theorem write_color_wf (c : Color) (h : WFColor c) : BytesWF (write_color c) := by
  intro x hx
  simp only [write_color, List.mem_cons, List.not_mem_nil, or_false] at hx
  rcases hx with he | he | he <;> subst he
  · exact h.1
  · exact h.2.1
  · exact h.2.2

theorem write_flip_action_wf (a : FlipAction) (h : WFAction a) :
    BytesWF (write_flip_marker_action a) := by
  match a with
  | .Jump ⟨src, tgt⟩ =>
    have h' : src.length = 8 ∧ tgt.length = 8 ∧ BytesWF src ∧ BytesWF tgt := h
    simp only [write_flip_marker_action, List.cons_append, List.nil_append, bytesWF_cons,
      bytesWF_append]
    refine ⟨by omega, ?_⟩
    exact ⟨⟨beBytes32_wf 16, h'.2.2.1⟩, h'.2.2.2⟩
  | .Censor ⟨b1, b2, b3⟩ =>
    have h' : b1.length = 8 ∧ b2.length = 8 ∧ b3.length = 8 ∧ BytesWF b1 ∧ BytesWF b2 ∧
        BytesWF b3 := h
    simp only [write_flip_marker_action, List.cons_append, List.nil_append, bytesWF_cons,
      bytesWF_append]
    refine ⟨by omega, ?_⟩
    exact ⟨⟨⟨beBytes32_wf 24, h'.2.2.2.1⟩, h'.2.2.2.2.1⟩, h'.2.2.2.2.2⟩
  | .Unknown ⟨id, data⟩ =>
    have h' : id < 256 ∧ id ≠ 0 ∧ id ≠ 1 ∧ BytesWF data ∧ data.length < 2 ^ 32 := h
    simp only [write_flip_marker_action, List.cons_append, List.nil_append, bytesWF_cons,
      bytesWF_append]
    exact ⟨h'.1, beBytes32_wf _, h'.2.2.2.1⟩

theorem flip_actions_bytes_wf : ∀ as : List FlipAction, (∀ a ∈ as, WFAction a) →
    BytesWF ((as.map write_flip_marker_action).flatten)
  | [], _ => bytesWF_nil
  | a :: as', h => by
    have ih := flip_actions_bytes_wf as' (fun x hx => h x (by simp [hx]))
    simp only [List.map_cons, List.flatten_cons, bytesWF_append]
    exact ⟨write_flip_action_wf a (h a (by simp)), ih⟩

theorem write_marker_wf (m : Marker) (h : WFMarker m) : BytesWF (write_marker m).1 := by
  match m with
  | .Unknown u =>
    have h' : u.name ≠ [] ∧ 0 ∉ u.name ∧ validUtf8 u.name = true ∧ BytesWF u.name ∧
        is_known_name u.name = false ∧ BytesWF u.data ∧ u.data.length < 2 ^ 32 := h
    obtain ⟨-, -, -, hn, -, hd, -⟩ := h'
    simp only [write_marker, beBytes32, List.cons_append, List.nil_append, List.append_assoc,
      bytesWF_append, bytesWF_cons]
    repeat' apply And.intro
    all_goals first
      | omega
      | exact bytesWF_nil
      | exact hn
      | exact hd
  | .BPMLock b =>
    simp only [write_marker, write_bpmlock_marker, nmBPMLOCK, beBytes32, List.cons_append,
      List.nil_append, List.append_assoc, bytesWF_append, bytesWF_cons]
    repeat' apply And.intro
    all_goals first
      | omega
      | exact bytesWF_nil
      | exact write_bool_wf _
  | .Color c =>
    have h' : WFColor c.color := h
    obtain ⟨hr, hg, hb⟩ := h'
    simp only [write_marker, write_color_marker, nmCOLOR, beBytes32, write_color,
      List.cons_append, List.nil_append, List.append_assoc, bytesWF_append, bytesWF_cons]
    repeat' apply And.intro
    all_goals first
      | omega
      | exact bytesWF_nil
  | .Cue c =>
    have h' : c.index < 256 ∧ c.position_millis < 2 ^ 32 ∧ WFColor c.color ∧
        WFLabel c.label ∧ 13 + c.label.length < 2 ^ 32 := h
    obtain ⟨hidx, -, ⟨hr, hg, hb⟩, ⟨hlwf, -, -⟩, -⟩ := h'
    simp only [write_marker, write_cue_marker, nmCUE, beBytes32, write_color,
      List.cons_append, List.nil_append, List.append_assoc, bytesWF_append, bytesWF_cons]
    repeat' apply And.intro
    all_goals first
      | omega
      | exact bytesWF_nil
      | exact hidx
      | exact hr
      | exact hg
      | exact hb
      | exact hlwf
  | .Loop l =>
    have h' : l.index < 256 ∧ l.start_position_millis < 2 ^ 32 ∧
        l.end_position_millis < 2 ^ 32 ∧ WFColor l.color ∧ WFLabel l.label ∧
        21 + l.label.length < 2 ^ 32 := h
    obtain ⟨hidx, -, -, ⟨hr, hg, hb⟩, ⟨hlwf, -, -⟩, -⟩ := h'
    simp only [write_marker, write_loop_marker, nmLOOP, beBytes32, write_color,
      List.cons_append, List.nil_append, List.append_assoc, bytesWF_append, bytesWF_cons]
    repeat' apply And.intro
    all_goals first
      | omega
      | exact bytesWF_nil
      | exact hidx
      | exact hr
      | exact hg
      | exact hb
      | exact hlwf
      | exact write_bool_wf _
  | .Flip f =>
    have h' : f.index < 256 ∧ WFLabel f.label ∧ f.actions.length < 2 ^ 32 ∧
        (∀ a ∈ f.actions, WFAction a) ∧
        9 + f.label.length + (f.actions.map flip_action_declared_size).sum < 2 ^ 32 := h
    obtain ⟨hidx, ⟨hlwf, -, -⟩, -, hact, -⟩ := h'
    simp only [write_marker, write_flip_marker, nmFLIP, beBytes32, List.cons_append,
      List.nil_append, List.append_assoc, bytesWF_append, bytesWF_cons]
    repeat' apply And.intro
    all_goals first
      | omega
      | exact bytesWF_nil
      | exact hidx
      | exact hlwf
      | exact write_bool_wf _
      | exact flip_actions_bytes_wf _ hact

theorem write_content_wf (c : Markers2Content) (h : WFContent c) :
    BytesWF (write_markers2_content c).1 := by
  obtain ⟨v, ms⟩ := c
  have h' : v.major < 256 ∧ v.minor < 256 ∧ ∀ m ∈ ms, WFMarker m := h
  have hflat : BytesWF ((ms.map (fun m => (write_marker m).1)).flatten) := by
    intro x hx
    simp only [List.mem_flatten, List.mem_map] at hx
    obtain ⟨l, ⟨m, hm, he⟩, hxl⟩ := hx
    exact write_marker_wf m (h'.2.2 m hm) x (he ▸ hxl)
  show BytesWF (write_version v ++ (ms.map (fun m => (write_marker m).1)).flatten)
  rw [bytesWF_append]
  exact ⟨by
    intro x hx
    simp only [write_version, List.mem_cons, List.not_mem_nil, or_false] at hx
    rcases hx with he | he <;> subst he
    · exact h'.1
    · exact h'.2.1, hflat⟩

/-! ## Soundness: parsed values are well-formed -/

theorem take_u8_sound {s r : Bytes} {v : Nat} (h : take_u8 s = some (r, v)) : s = v :: r := by
  match s with
  | [] => simp [take_u8] at h
  | b :: t =>
    simp only [take_u8, Option.some.injEq, Prod.mk.injEq] at h
    simp [h.1, h.2]

theorem take_bool_sound {s r : Bytes} {b : Bool} (h : take_bool s = some (r, b)) :
    ∃ x, s = x :: r := by
  match s with
  | [] => simp [take_bool] at h
  | y :: t =>
    simp only [take_bool, Option.some.injEq, Prod.mk.injEq] at h
    exact ⟨y, by simp [h.1]⟩

theorem take_color_sound {s r : Bytes} {c : Color} (h : take_color s = some (r, c)) :
    s = c.red :: c.green :: c.blue :: r := by
  match s with
  | x :: y :: z :: t =>
    simp only [take_color, Option.some.injEq, Prod.mk.injEq] at h
    obtain ⟨h1, h2⟩ := h
    subst h1
    simp [← h2]
  | [] => simp [take_color] at h
  | [x] => simp [take_color] at h
  | [x, y] => simp [take_color] at h

theorem take_version_sound {s r : Bytes} {v : Version} (h : take_version s = some (r, v)) :
    s = v.major :: v.minor :: r := by
  match s with
  | a :: b :: t =>
    simp only [take_version, Option.some.injEq, Prod.mk.injEq] at h
    obtain ⟨h1, h2⟩ := h
    subst h1
    simp [← h2]
  | [] => simp [take_version] at h
  | [a] => simp [take_version] at h

theorem take_flip_action_jump_sound {data rr : Bytes} {a : FlipAction}
    (h : take_flip_marker_action_jump data = some (rr, a)) (hwf : BytesWF data) :
    ∃ j : JumpFlipAction, a = .Jump j ∧ WFAction (.Jump j) ∧
      data = j.source_position_seconds ++ j.target_position_seconds ++ rr := by
  simp only [take_flip_marker_action_jump] at h
  cases h1 : takeExact 8 data with
  | none => rw [h1] at h; simp at h
  | some p1 =>
    rw [h1] at h
    dsimp only at h
    obtain ⟨r1, src⟩ := p1
    cases h2 : takeExact 8 r1 with
    | none => rw [h2] at h; simp at h
    | some p2 =>
      rw [h2] at h
      dsimp only at h
      obtain ⟨r2, tgt⟩ := p2
      simp only [Option.some.injEq, Prod.mk.injEq] at h
      obtain ⟨hr, ha⟩ := h
      subst hr
      obtain ⟨hd1, hl1⟩ := takeExact_sound h1
      obtain ⟨hd2, hl2⟩ := takeExact_sound h2
      subst hd2 hd1
      refine ⟨⟨src, tgt⟩, ha.symm, ⟨hl1, hl2, ?_, ?_⟩, by simp⟩
      · exact fun x hx => hwf x (by simp [hx])
      · exact fun x hx => hwf x (by simp [hx])

theorem take_flip_action_censor_sound {data rr : Bytes} {a : FlipAction}
    (h : take_flip_marker_action_censor data = some (rr, a)) (hwf : BytesWF data) :
    ∃ j : CensorFlipAction, a = .Censor j ∧ WFAction (.Censor j) ∧
      data = j.start_position_seconds ++ j.end_position_seconds ++ j.speed_factor ++ rr := by
  simp only [take_flip_marker_action_censor] at h
  cases h1 : takeExact 8 data with
  | none => rw [h1] at h; simp at h
  | some p1 =>
    rw [h1] at h
    dsimp only at h
    obtain ⟨r1, b1⟩ := p1
    cases h2 : takeExact 8 r1 with
    | none => rw [h2] at h; simp at h
    | some p2 =>
      rw [h2] at h
      dsimp only at h
      obtain ⟨r2, b2⟩ := p2
      cases h3 : takeExact 8 r2 with
      | none => rw [h3] at h; simp at h
      | some p3 =>
        rw [h3] at h
        dsimp only at h
        obtain ⟨r3, b3⟩ := p3
        simp only [Option.some.injEq, Prod.mk.injEq] at h
        obtain ⟨hr, ha⟩ := h
        subst hr
        obtain ⟨hd1, hl1⟩ := takeExact_sound h1
        obtain ⟨hd2, hl2⟩ := takeExact_sound h2
        obtain ⟨hd3, hl3⟩ := takeExact_sound h3
        subst hd3 hd2 hd1
        refine ⟨⟨b1, b2, b3⟩, ha.symm, ⟨hl1, hl2, hl3, ?_, ?_, ?_⟩, by simp⟩
      
        · exact fun x hx => hwf x (by simp [hx])
        · exact fun x hx => hwf x (by simp [hx])
        · exact fun x hx => hwf x (by simp [hx])

theorem take_flip_action_sound {s rr : Bytes} {a : FlipAction}
    (h : take_flip_marker_action s = some (rr, a)) (hwf : BytesWF s) :
    WFAction a ∧ ∃ pre : Bytes, s = pre ++ rr ∧ pre.length = flip_action_actual_size a := by
  simp only [take_flip_marker_action] at h
  cases h0 : take_u8 s with
  | none => rw [h0] at h; simp at h
  | some p0 =>
    rw [h0] at h
    dsimp only at h
    obtain ⟨s1, id⟩ := p0
    have hs1 : s = id :: s1 := take_u8_sound h0
    have hid : id < 256 := hwf id (by simp [hs1])
    have hwf1 : BytesWF s1 := fun x hx => hwf x (by simp [hs1, hx])
    cases h1 : take_u32be s1 with
    | none => rw [h1] at h; simp at h
    | some p1 =>
      rw [h1] at h
      dsimp only at h
      obtain ⟨s2, len⟩ := p1
      obtain ⟨hlen32, pre4, hs2, hpre4⟩ := take_u32be_sound h1 hwf1
      have hwf2 : BytesWF s2 := fun x hx => hwf1 x (by simp [hs2, hx])
      cases h2 : takeExact len s2 with
      | none => rw [h2] at h; simp at h
      | some p2 =>
        rw [h2] at h
        dsimp only at h
        obtain ⟨r3, data⟩ := p2
        obtain ⟨hdata, hdlen⟩ := takeExact_sound h2
        have hwfd : BytesWF data := fun x hx => hwf2 x (by simp [hdata, hx])
        by_cases hz : id = 0
        · rw [if_pos hz] at h
          cases hj : take_flip_marker_action_jump data with
          | none => rw [hj] at h; simp at h
          | some pj =>
            rw [hj] at h
            obtain ⟨rj, aj⟩ := pj
            match rj, h with
            | [], h =>
              dsimp only at h
              simp only [Option.some.injEq, Prod.mk.injEq] at h
              obtain ⟨hr, ha⟩ := h
              subst hr ha
              obtain ⟨j, haj, hwfj, hdata2⟩ := take_flip_action_jump_sound hj hwfd
              subst haj
              refine ⟨hwfj, id :: pre4 ++ data, by simp [hs1, hs2, hdata], ?_⟩
              have : data.length = 16 := by
                rw [hdata2]
                simp [hwfj.1, hwfj.2.1]
              simp only [List.length_cons, List.length_append, hpre4, this,
                flip_action_actual_size]
        · by_cases ho : id = 1
          · rw [if_neg hz, if_pos ho] at h
            cases hc : take_flip_marker_action_censor data with
            | none => rw [hc] at h; simp at h
            | some pc =>
              rw [hc] at h
              obtain ⟨rc, ac⟩ := pc
              match rc, h with
              | [], h =>
                dsimp only at h
                simp only [Option.some.injEq, Prod.mk.injEq] at h
                obtain ⟨hr, ha⟩ := h
                subst hr ha
                obtain ⟨j, haj, hwfj, hdata2⟩ := take_flip_action_censor_sound hc hwfd
                subst haj
                refine ⟨hwfj, id :: pre4 ++ data, by simp [hs1, hs2, hdata], ?_⟩
                have : data.length = 24 := by
                  rw [hdata2]
                  simp [hwfj.1, hwfj.2.1, hwfj.2.2.1]
                simp only [List.length_cons, List.length_append, hpre4, this,
                  flip_action_actual_size]
          · rw [if_neg hz, if_neg ho] at h
            simp only [Option.some.injEq, Prod.mk.injEq] at h
            obtain ⟨hr, ha⟩ := h
            subst hr
            refine ⟨?_, id :: pre4 ++ data, by simp [hs1, hs2, hdata], ?_⟩
            · rw [← ha]
              exact ⟨hid, hz, ho, hwfd, hdlen ▸ hlen32⟩
            · rw [← ha]
              simp only [List.length_cons, List.length_append, hpre4,
                flip_action_actual_size]
              omega

theorem take_flip_actions_go_sound : ∀ {n : Nat} {s rr : Bytes} {as : List FlipAction},
    take_flip_actions_go n s = some (rr, as) → BytesWF s →
    (∀ a ∈ as, WFAction a) ∧ as.length = n ∧
      ∃ pre : Bytes, s = pre ++ rr ∧ pre.length = (as.map flip_action_actual_size).sum
  | 0, s, rr, as, h, _ => by
    simp only [take_flip_actions_go, Option.some.injEq, Prod.mk.injEq] at h
    obtain ⟨h1, h2⟩ := h
    subst h1 h2
    exact ⟨by simp, rfl, [], by simp, by simp⟩
  | n + 1, s, rr, as, h, hwf => by
    simp only [take_flip_actions_go] at h
    cases h0 : take_flip_marker_action s with
    | none => rw [h0] at h; simp at h
    | some p0 =>
      rw [h0] at h
      dsimp only at h
      obtain ⟨r1, a⟩ := p0
      cases h1 : take_flip_actions_go n r1 with
      | none => rw [h1] at h; simp at h
      | some p1 =>
        rw [h1] at h
        dsimp only at h
        obtain ⟨r2, as'⟩ := p1
        simp only [Option.some.injEq, Prod.mk.injEq] at h
        obtain ⟨hr, has⟩ := h
        subst hr
        obtain ⟨hwa, pre, hs, hpre⟩ := take_flip_action_sound h0 hwf
        have hwfr1 : BytesWF r1 := fun x hx => hwf x (by simp [hs, hx])
        obtain ⟨hall, hlen, pre', hr1, hpre'⟩ := take_flip_actions_go_sound h1 hwfr1
        subst has
        refine ⟨?_, by simp [hlen], pre ++ pre', by simp [hs, hr1], ?_⟩
        · intro x hx
          simp only [List.mem_cons] at hx
          rcases hx with hx | hx
          · exact hx ▸ hwa
          · exact hall x hx
        · simp [hpre, hpre']

theorem take_bpmlock_sound {data rr : Bytes} {m : Marker}
    (h : take_bpmlock_marker data = some (rr, m)) : ∃ b, m = .BPMLock b := by
  simp only [take_bpmlock_marker] at h
  cases h0 : take_bool data with
  | none => rw [h0] at h; simp at h
  | some p =>
    rw [h0] at h
    dsimp only at h
    obtain ⟨r, v⟩ := p
    simp only [Option.some.injEq, Prod.mk.injEq] at h
    exact ⟨⟨v⟩, h.2.symm⟩

theorem take_color_marker_sound {data rr : Bytes} {m : Marker}
    (h : take_color_marker data = some (rr, m)) (hwf : BytesWF data) :
    ∃ c, m = .Color c ∧ WFColor c.color := by
  simp only [take_color_marker] at h
  cases h0 : take_tag [0] data with
  | none => rw [h0] at h; simp at h
  | some p0 =>
    rw [h0] at h
    dsimp only at h
    obtain ⟨s1, t1⟩ := p0
    obtain ⟨-, hdata⟩ := take_tag_sound h0
    cases h1 : take_color s1 with
    | none => rw [h1] at h; simp at h
    | some p1 =>
      rw [h1] at h
      dsimp only at h
      obtain ⟨s2, c⟩ := p1
      simp only [Option.some.injEq, Prod.mk.injEq] at h
      have hs1 := take_color_sound h1
      refine ⟨⟨c⟩, h.2.symm, ?_, ?_, ?_⟩ <;>
        exact hwf _ (by simp [hdata, hs1])

theorem take_cue_sound {data rr : Bytes} {m : Marker}
    (h : take_cue_marker data = some (rr, m)) (hwf : BytesWF data) :
    ∃ c : Cue, m = .Cue c ∧ c.index < 256 ∧ c.position_millis < 2 ^ 32 ∧ WFColor c.color ∧
      WFLabel c.label ∧ data.length = 13 + c.label.length + rr.length := by
  simp only [take_cue_marker] at h
  cases h0 : take_tag [0] data with
  | none => rw [h0] at h; simp at h
  | some p0 =>
    rw [h0] at h
    dsimp only at h
    obtain ⟨s1, t1⟩ := p0
    obtain ⟨-, hdata⟩ := take_tag_sound h0
    have hwf1 : BytesWF s1 := fun x hx => hwf x (by simp [hdata, hx])
    cases h1 : take_u8 s1 with
    | none => rw [h1] at h; simp at h
    | some p1 =>
      rw [h1] at h
      dsimp only at h
      obtain ⟨s2, idx⟩ := p1
      have hs1 := take_u8_sound h1
      have hidx : idx < 256 := hwf1 idx (by simp [hs1])
      have hwf2 : BytesWF s2 := fun x hx => hwf1 x (by simp [hs1, hx])
      cases h2 : take_u32be s2 with
      | none => rw [h2] at h; simp at h
      | some p2 =>
        rw [h2] at h
        dsimp only at h
        obtain ⟨s3, pos⟩ := p2
        obtain ⟨hpos, pre4, hs2, hpre4⟩ := take_u32be_sound h2 hwf2
        have hwf3 : BytesWF s3 := fun x hx => hwf2 x (by simp [hs2, hx])
        cases h3 : take_tag [0] s3 with
        | none => rw [h3] at h; simp at h
        | some p3 =>
          rw [h3] at h
          dsimp only at h
          obtain ⟨s4, t3⟩ := p3
          obtain ⟨-, hs3⟩ := take_tag_sound h3
          have hwf4 : BytesWF s4 := fun x hx => hwf3 x (by simp [hs3, hx])
          cases h4 : take_color s4 with
          | none => rw [h4] at h; simp at h
          | some p4 =>
            rw [h4] at h
            dsimp only at h
            obtain ⟨s5, col⟩ := p4
            have hs4 := take_color_sound h4
            have hcol : WFColor col :=
              ⟨hwf4 _ (by simp [hs4]), hwf4 _ (by simp [hs4]), hwf4 _ (by simp [hs4])⟩
            have hwf5 : BytesWF s5 := fun x hx => hwf4 x (by simp [hs4, hx])
            cases h5 : take_tag [0, 0] s5 with
            | none => rw [h5] at h; simp at h
            | some p5 =>
              rw [h5] at h
              dsimp only at h
              obtain ⟨s6, t5⟩ := p5
              obtain ⟨-, hs5⟩ := take_tag_sound h5
              have hwf6 : BytesWF s6 := fun x hx => hwf5 x (by simp [hs5, hx])
              cases h6 : take_utf8 s6 with
              | none => rw [h6] at h; simp at h
              | some p6 =>
                rw [h6] at h
                dsimp only at h
                obtain ⟨s7, label⟩ := p6
                obtain ⟨hs6, hl0, hlu⟩ := take_utf8_sound h6
                simp only [Option.some.injEq, Prod.mk.injEq] at h
                obtain ⟨hr, hm⟩ := h
                subst hr
                refine ⟨⟨idx, pos, col, label⟩, hm.symm, hidx, hpos, hcol,
                  ⟨fun x hx => hwf6 x (by simp [hs6, hx]), hl0, hlu⟩, ?_⟩
                rw [hdata, hs1, hs2, hs3, hs4, hs5, hs6]
                simp [hpre4]
                omega

theorem take_loop_sound {data rr : Bytes} {m : Marker}
    (h : take_loop_marker data = some (rr, m)) (hwf : BytesWF data) :
    ∃ l : Loop, m = .Loop l ∧ l.index < 256 ∧ l.start_position_millis < 2 ^ 32 ∧
      l.end_position_millis < 2 ^ 32 ∧ WFColor l.color ∧ WFLabel l.label ∧
      data.length = 21 + l.label.length + rr.length := by
  simp only [take_loop_marker] at h
  cases h0 : take_tag [0] data with
  | none => rw [h0] at h; simp at h
  | some p0 =>
    rw [h0] at h
    dsimp only at h
    obtain ⟨s1, t1⟩ := p0
    obtain ⟨-, hdata⟩ := take_tag_sound h0
    have hwf1 : BytesWF s1 := fun x hx => hwf x (by simp [hdata, hx])
    cases h1 : take_u8 s1 with
    | none => rw [h1] at h; simp at h
    | some p1 =>
      rw [h1] at h
      dsimp only at h
      obtain ⟨s2, idx⟩ := p1
      have hs1 := take_u8_sound h1
      have hidx : idx < 256 := hwf1 idx (by simp [hs1])
      have hwf2 : BytesWF s2 := fun x hx => hwf1 x (by simp [hs1, hx])
      cases h2 : take_u32be s2 with
      | none => rw [h2] at h; simp at h
      | some p2 =>
        rw [h2] at h
        dsimp only at h
        obtain ⟨s3, sp⟩ := p2
        obtain ⟨hsp, pre4, hs2, hpre4⟩ := take_u32be_sound h2 hwf2
        have hwf3 : BytesWF s3 := fun x hx => hwf2 x (by simp [hs2, hx])
        cases h3 : take_u32be s3 with
        | none => rw [h3] at h; simp at h
        | some p3 =>
          rw [h3] at h
          dsimp only at h
          obtain ⟨s4, ep⟩ := p3
          obtain ⟨hep, pre4b, hs3, hpre4b⟩ := take_u32be_sound h3 hwf3
          have hwf4 : BytesWF s4 := fun x hx => hwf3 x (by simp [hs3, hx])
          cases h4 : take_tag [255, 255, 255, 255] s4 with
          | none => rw [h4] at h; simp at h
          | some p4 =>
            rw [h4] at h
            dsimp only at h
            obtain ⟨s5, t4⟩ := p4
            obtain ⟨-, hs4⟩ := take_tag_sound h4
            have hwf5 : BytesWF s5 := fun x hx => hwf4 x (by simp [hs4, hx])
            cases h5 : take_tag [0] s5 with
            | none => rw [h5] at h; simp at h
            | some p5 =>
              rw [h5] at h
              dsimp only at h
              obtain ⟨s6, t5⟩ := p5
              obtain ⟨-, hs5⟩ := take_tag_sound h5
              have hwf6 : BytesWF s6 := fun x hx => hwf5 x (by simp [hs5, hx])
              cases h6 : take_color s6 with
              | none => rw [h6] at h; simp at h
              | some p6 =>
                rw [h6] at h
                dsimp only at h
                obtain ⟨s7, col⟩ := p6
                have hs6 := take_color_sound h6
                have hcol : WFColor col :=
                  ⟨hwf6 _ (by simp [hs6]), hwf6 _ (by simp [hs6]), hwf6 _ (by simp [hs6])⟩
                have hwf7 : BytesWF s7 := fun x hx => hwf6 x (by simp [hs6, hx])
                cases h7 : take_tag [0] s7 with
                | none => rw [h7] at h; simp at h
                | some p7 =>
                  rw [h7] at h
                  dsimp only at h
                  obtain ⟨s8, t7⟩ := p7
                  obtain ⟨-, hs7⟩ := take_tag_sound h7
                  have hwf8 : BytesWF s8 := fun x hx => hwf7 x (by simp [hs7, hx])
                  cases h8 : take_bool s8 with
                  | none => rw [h8] at h; simp at h
                  | some p8 =>
                    rw [h8] at h
                    dsimp only at h
                    obtain ⟨s9, locked⟩ := p8
                    obtain ⟨x8, hs8⟩ := take_bool_sound h8
                    have hwf9 : BytesWF s9 := fun x hx => hwf8 x (by simp [hs8, hx])
                    cases h9 : take_utf8 s9 with
                    | none => rw [h9] at h; simp at h
                    | some p9 =>
                      rw [h9] at h
                      dsimp only at h
                      obtain ⟨s10, label⟩ := p9
                      obtain ⟨hs9, hl0, hlu⟩ := take_utf8_sound h9
                      simp only [Option.some.injEq, Prod.mk.injEq] at h
                      obtain ⟨hr, hm⟩ := h
                      subst hr
                      refine ⟨⟨idx, sp, ep, col, locked, label⟩, hm.symm, hidx, hsp, hep,
                        hcol, ⟨fun x hx => hwf9 x (by simp [hs9, hx]), hl0, hlu⟩, ?_⟩
                      rw [hdata, hs1, hs2, hs3, hs4, hs5, hs6, hs7, hs8, hs9]
                      simp [hpre4, hpre4b]
                      omega

theorem flip_declared_le_actual (a : FlipAction) :
    flip_action_declared_size a ≤ flip_action_actual_size a := by
  match a with
  | .Jump _ => exact Nat.le_refl _
  | .Censor _ => exact Nat.le_refl _
  | .Unknown u => simp [flip_action_declared_size, flip_action_actual_size]

theorem flip_declared_sum_le : ∀ as : List FlipAction,
    (as.map flip_action_declared_size).sum ≤ (as.map flip_action_actual_size).sum
  | [] => Nat.le_refl _
  | a :: as' => by
    have ih := flip_declared_sum_le as'
    have := flip_declared_le_actual a
    simp only [List.map_cons, List.sum_cons]
    omega

theorem take_flip_sound {data rr : Bytes} {m : Marker}
    (h : take_flip_marker data = some (rr, m)) (hwf : BytesWF data) :
    ∃ f : Flip, m = .Flip f ∧ f.index < 256 ∧ WFLabel f.label ∧
      f.actions.length < 2 ^ 32 ∧ (∀ a ∈ f.actions, WFAction a) ∧
      data.length = 9 + f.label.length + (f.actions.map flip_action_actual_size).sum +
        rr.length := by
  simp only [take_flip_marker] at h
  cases h0 : take_tag [0] data with
  | none => rw [h0] at h; simp at h
  | some p0 =>
    rw [h0] at h
    dsimp only at h
    obtain ⟨s1, t1⟩ := p0
    obtain ⟨-, hdata⟩ := take_tag_sound h0
    have hwf1 : BytesWF s1 := fun x hx => hwf x (by simp [hdata, hx])
    cases h1 : take_u8 s1 with
    | none => rw [h1] at h; simp at h
    | some p1 =>
      rw [h1] at h
      dsimp only at h
      obtain ⟨s2, idx⟩ := p1
      have hs1 := take_u8_sound h1
      have hidx : idx < 256 := hwf1 idx (by simp [hs1])
      have hwf2 : BytesWF s2 := fun x hx => hwf1 x (by simp [hs1, hx])
      cases h2 : take_bool s2 with
      | none => rw [h2] at h; simp at h
      | some p2 =>
        rw [h2] at h
        dsimp only at h
        obtain ⟨s3, en⟩ := p2
        obtain ⟨x2, hs2⟩ := take_bool_sound h2
        have hwf3 : BytesWF s3 := fun x hx => hwf2 x (by simp [hs2, hx])
        cases h3 : take_utf8 s3 with
        | none => rw [h3] at h; simp at h
        | some p3 =>
          rw [h3] at h
          dsimp only at h
          obtain ⟨s4, label⟩ := p3
          obtain ⟨hs3, hl0, hlu⟩ := take_utf8_sound h3
          have hwf4 : BytesWF s4 := fun x hx => hwf3 x (by simp [hs3, hx])
          cases h4 : take_bool s4 with
          | none => rw [h4] at h; simp at h
          | some p4 =>
            rw [h4] at h
            dsimp only at h
            obtain ⟨s5, lp⟩ := p4
            obtain ⟨x4, hs4⟩ := take_bool_sound h4
            have hwf5 : BytesWF s5 := fun x hx => hwf4 x (by simp [hs4, hx])
            cases h5 : take_u32be s5 with
            | none => rw [h5] at h; simp at h
            | some p5 =>
              rw [h5] at h
              dsimp only at h
              obtain ⟨s6, count⟩ := p5
              obtain ⟨hcnt, pre4, hs5, hpre4⟩ := take_u32be_sound h5 hwf5
              have hwf6 : BytesWF s6 := fun x hx => hwf5 x (by simp [hs5, hx])
              cases h6 : take_flip_actions_go count s6 with
              | none => rw [h6] at h; simp at h
              | some p6 =>
                rw [h6] at h
                dsimp only at h
                obtain ⟨s7, acts⟩ := p6
                obtain ⟨hall, hlen, pre', hs6, hpre'⟩ := take_flip_actions_go_sound h6 hwf6
                simp only [Option.some.injEq, Prod.mk.injEq] at h
                obtain ⟨hr, hm⟩ := h
                subst hr
                refine ⟨⟨idx, en, label, lp, acts⟩, hm.symm, hidx,
                  ⟨fun x hx => hwf3 x (by simp [hs3, hx]), hl0, hlu⟩,
                  by simp only [hlen]; exact hcnt, hall, ?_⟩
                rw [hdata, hs1, hs2, hs3, hs4, hs5, hs6]
                simp [hpre4, hpre']
                omega

theorem take_marker_name_sound {s r1 name : Bytes}
    (h : take_marker_name s = some (r1, name)) :
    s = name ++ 0 :: r1 ∧ name ≠ [] ∧ 0 ∉ name ∧ validUtf8 name = true := by
  match s with
  | [] => simp [take_marker_name, take_utf8, splitAtZero] at h
  | 0 :: t => simp [take_marker_name] at h
  | (b + 1) :: t =>
    have hred : take_marker_name ((b + 1) :: t) =
        match take_utf8 ((b + 1) :: t) with
        | some (r, nm) => if nm = [] then none else some (r, nm)
        | none => none := rfl
    rw [hred] at h
    cases h0 : take_utf8 ((b + 1) :: t) with
    | none => rw [h0] at h; simp at h
    | some p =>
      rw [h0] at h
      dsimp only at h
      obtain ⟨r, nm⟩ := p
      by_cases hnm : nm = []
      · rw [if_pos hnm] at h; simp at h
      · rw [if_neg hnm] at h
        simp only [Option.some.injEq, Prod.mk.injEq] at h
        obtain ⟨hr, hn⟩ := h
        subst hr hn
        obtain ⟨hs, h02, hu⟩ := take_utf8_sound h0
        exact ⟨hs, hnm, h02, hu⟩

theorem is_known_name_cases {name : Bytes} (h : is_known_name name = true) :
    name = nmBPMLOCK ∨ name = nmCOLOR ∨ name = nmCUE ∨ name = nmLOOP ∨ name = nmFLIP := by
  simp only [is_known_name, Bool.or_eq_true, beq_iff_eq] at h
  tauto

theorem known_body_bpmlock (data : Bytes) :
    known_body nmBPMLOCK data = take_bpmlock_marker data := by
  simp [known_body]

theorem known_body_color (data : Bytes) :
    known_body nmCOLOR data = take_color_marker data := by
  simp [known_body, nmCOLOR, nmBPMLOCK]

theorem take_marker_sound {s rr : Bytes} {m : Marker}
    (h : take_marker s = some (rr, m)) (hwf : BytesWF s) :
    WFMarker m ∧ ∃ pre : Bytes, s = pre ++ rr ∧ pre ≠ [] := by
  simp only [take_marker] at h
  cases h0 : take_marker_name s with
  | none => rw [h0] at h; simp at h
  | some p0 =>
    rw [h0] at h
    dsimp only at h
    obtain ⟨r1, name⟩ := p0
    obtain ⟨hs, hne, h02, hu⟩ := take_marker_name_sound h0
    have hwfn : BytesWF name := fun x hx => hwf x (by simp [hs, hx])
    have hwf1 : BytesWF r1 := fun x hx => hwf x (by simp [hs, hx])
    cases h1 : take_u32be r1 with
    | none => rw [h1] at h; simp at h
    | some p1 =>
      rw [h1] at h
      dsimp only at h
      obtain ⟨r2, len⟩ := p1
      obtain ⟨hlen32, pre4, hr1, hpre4⟩ := take_u32be_sound h1 hwf1
      have hwf2 : BytesWF r2 := fun x hx => hwf1 x (by simp [hr1, hx])
      cases h2 : takeExact len r2 with
      | none => rw [h2] at h; simp at h
      | some p2 =>
        rw [h2] at h
        dsimp only at h
        obtain ⟨r3, data⟩ := p2
        obtain ⟨hr2, hdlen⟩ := takeExact_sound h2
        have hwfd : BytesWF data := fun x hx => hwf2 x (by simp [hr2, hx])
        by_cases hk : is_known_name name = true
        · rw [if_pos hk] at h
          cases hb : known_body name data with
          | none => rw [hb] at h; simp at h
          | some pb =>
            rw [hb] at h
            obtain ⟨lb, mb⟩ := pb
            match lb, h with
            | [], h =>
              dsimp only at h
              simp only [Option.some.injEq, Prod.mk.injEq] at h
              obtain ⟨hr, hm⟩ := h
              subst hr hm
              refine ⟨?_, name ++ 0 :: (pre4 ++ data), by simp [hs, hr1, hr2], by simp⟩
              rcases is_known_name_cases hk with hn | hn | hn | hn | hn <;> subst hn
              · rw [known_body_bpmlock] at hb
                obtain ⟨b, hmb⟩ := take_bpmlock_sound hb
                subst hmb
                exact trivial
              · rw [known_body_color] at hb
                obtain ⟨c, hmb, hcol⟩ := take_color_marker_sound hb hwfd
                subst hmb
                exact hcol
              · rw [known_body_cue] at hb
                obtain ⟨c, hmb, hidx, hpos, hcol, hlab, hsz⟩ := take_cue_sound hb hwfd
                subst hmb
                exact ⟨hidx, hpos, hcol, hlab, by simp at hsz; omega⟩
              · rw [known_body_loop] at hb
                obtain ⟨l, hmb, hidx, hsp, hep, hcol, hlab, hsz⟩ := take_loop_sound hb hwfd
                subst hmb
                exact ⟨hidx, hsp, hep, hcol, hlab, by simp at hsz; omega⟩
              · rw [known_body_flip] at hb
                obtain ⟨f, hmb, hidx, hlab, hacnt, hall, hsz⟩ := take_flip_sound hb hwfd
                subst hmb
                refine ⟨hidx, hlab, hacnt, hall, ?_⟩
                have hle := flip_declared_sum_le f.actions
                simp at hsz
                omega
        · rw [if_neg hk] at h
          simp only [Option.some.injEq, Prod.mk.injEq] at h
          obtain ⟨hr, hm⟩ := h
          subst hr
          refine ⟨?_, name ++ 0 :: (pre4 ++ data), by simp [hs, hr1, hr2], by simp⟩
          rw [← hm]
          exact ⟨hne, h02, hu, hwfn, by simpa using hk, hwfd, hdlen ▸ hlen32⟩

theorem take_markers_go_sound : ∀ (fuel : Nat) {s r : Bytes} {ms : List Marker},
    take_markers_go fuel s = (r, ms) → BytesWF s → ∀ m ∈ ms, WFMarker m
  | 0, s, r, ms, h, _ => by
    simp only [take_markers_go] at h
    cases h
    intro m hm
    simp at hm
  | fuel + 1, s, r, ms, h, hwf => by
    simp only [take_markers_go] at h
    cases h0 : take_marker s with
    | none =>
      rw [h0] at h
      dsimp only at h
      cases h
      intro m hm
      simp at hm
    | some p0 =>
      rw [h0] at h
      dsimp only at h
      obtain ⟨r1, m1⟩ := p0
      obtain ⟨hwfm, pre, hs, -⟩ := take_marker_sound h0 hwf
      have hwf1 : BytesWF r1 := fun x hx => hwf x (by simp [hs, hx])
      cases h1 : take_markers_go fuel r1 with
      | mk r2 ms2 =>
        rw [h1] at h
        dsimp only at h
        cases h
        intro m hm
        simp only [List.mem_cons] at hm
        rcases hm with hm | hm
        · exact hm ▸ hwfm
        · exact take_markers_go_sound fuel h1 hwf1 m hm

theorem parse_content_sound {d l : Bytes} {c : Markers2Content}
    (h : parse_markers2_content d = some (l, c)) (hwf : BytesWF d) : WFContent c := by
  simp only [parse_markers2_content] at h
  cases h0 : take_version d with
  | none => rw [h0] at h; simp at h
  | some p0 =>
    rw [h0] at h
    dsimp only at h
    obtain ⟨r, v⟩ := p0
    have hd := take_version_sound h0
    have hwfr : BytesWF r := fun x hx => hwf x (by simp [hd, hx])
    cases h1 : take_markers_go (r.length + 1) r with
    | mk r2 ms =>
      rw [h1] at h
      dsimp only at h
      cases h
      refine ⟨hwf _ (by simp [hd]), hwf _ (by simp [hd]), ?_⟩
      exact take_markers_go_sound _ h1 hwfr

theorem decodeOneChunk_bounds {c d : Bytes} (h : decodeOneChunk c = .ok d) : BytesWF d := by
  simp only [decodeOneChunk] at h
  split at h
  · simp at h
  · cases h0 : b64_decode_lenient c with
    | ok g =>
      rw [h0] at h
      dsimp only at h
      cases h
      simp only [b64_decode_lenient] at h0
      split at h0
      · simp at h0
      · exact b64DecodeCore_bounds c _ h0
    | error e =>
      rw [h0] at h
      match e, h with
      | .invalidLength, h =>
        dsimp only at h
        cases h1 : b64_decode_lenient (c ++ [65]) with
        | ok g =>
          rw [h1] at h
          dsimp only at h
          cases h
          simp only [b64_decode_lenient] at h1
          split at h1
          · simp at h1
          · exact b64DecodeCore_bounds _ _ h1
        | error e2 =>
          rw [h1] at h
          dsimp only at h
          cases h

theorem decode_base64_chunks_bounds : ∀ {cs : List Bytes} {d : Bytes},
    decode_base64_chunks cs = .ok d → BytesWF d
  | [], d, h => by
    simp only [decode_base64_chunks] at h
    cases h
    exact bytesWF_nil
  | c :: cs', d, h => by
    simp only [decode_base64_chunks] at h
    cases h0 : decodeOneChunk c with
    | ok g =>
      rw [h0] at h
      dsimp only at h
      cases h1 : decode_base64_chunks cs' with
      | ok ds =>
        rw [h1] at h
        dsimp only at h
        cases h
        exact bytesWF_append.mpr ⟨decodeOneChunk_bounds h0, decode_base64_chunks_bounds h1⟩
      | err => rw [h1] at h; simp at h
      | panic => rw [h1] at h; simp at h
    | err => rw [h0] at h; simp at h
    | panic => rw [h0] at h; simp at h

theorem take_markers2_sound {s r : Bytes} {m : Markers2}
    (h : take_markers2 s = .ok r m) :
    WFContent m.content ∧ ∃ v, m.version = some v ∧ m.size = s.length := by
  simp only [take_markers2] at h
  cases h0 : take_version s with
  | none => rw [h0] at h; simp at h
  | some p0 =>
    rw [h0] at h
    dsimp only at h
    obtain ⟨r1, v⟩ := p0
    cases h1 : take_base64_chunks r1 with
    | none => rw [h1] at h; simp at h
    | some p1 =>
      rw [h1] at h
      dsimp only at h
      obtain ⟨r2, chunks⟩ := p1
      cases h2 : decode_base64_chunks chunks with
      | ok d =>
        rw [h2] at h
        dsimp only at h
        cases h3 : parse_markers2_content d with
        | none => rw [h3] at h; simp at h
        | some p3 =>
          rw [h3] at h
          dsimp only at h
          obtain ⟨l, content⟩ := p3
          cases h
          exact ⟨parse_content_sound h3 (decode_base64_chunks_bounds h2), v, rfl, rfl⟩
      | err => rw [h2] at h; simp at h
      | panic => rw [h2] at h; simp at h

theorem markers2_parse_sound {s : Bytes} {m : Markers2} (h : Markers2.parse s = .ok m) :
    take_markers2 s = .ok [] m ∧ WFContent m.content ∧
      ∃ v, m.version = some v ∧ m.size = s.length := by
  simp only [Markers2.parse] at h
  cases h0 : take_markers2 s with
  | ok r m' =>
    rw [h0] at h
    match r, h with
    | [], h =>
      dsimp only at h
      simp only [ParseOut.ok.injEq] at h
      subst h
      exact ⟨rfl, take_markers2_sound h0⟩
  | err => rw [h0] at h; simp at h
  | panic => rw [h0] at h; simp at h

theorem take_markers2_write (m : Markers2) (v : Version) (hv : m.version = some v)
    (hwf : WFContent m.content) (hno : contentNoUnknownB m.content = true) :
    write_markers2 m = some (write_version v ++ base64_encode (write_markers2_content m.content).1 ++
        List.replicate (m.size - (2 + (base64_encode (write_markers2_content m.content).1).length)) 0,
      2 + (base64_encode (write_markers2_content m.content).1).length +
        (m.size - (2 + (base64_encode (write_markers2_content m.content).1).length))) ∧
    take_markers2 (write_version v ++ base64_encode (write_markers2_content m.content).1 ++
        List.replicate (m.size - (2 + (base64_encode (write_markers2_content m.content).1).length)) 0) =
      .ok [] ⟨some v,
        (write_version v ++ base64_encode (write_markers2_content m.content).1 ++
          List.replicate (m.size - (2 + (base64_encode (write_markers2_content m.content).1).length)) 0).length,
        m.content⟩ := by
  have hdwf : BytesWF (write_markers2_content m.content).1 := write_content_wf _ hwf
  have hinner := parse_content_write _ hwf hno
  have hchunkfacts := chunks54_mem (write_markers2_content m.content).1 hdwf
  have hlfacts : ∀ l ∈ (chunks54 (write_markers2_content m.content).1).map b64EncodeNoPad,
      l ≠ [] ∧ ∀ x ∈ l, is_base64 x = true := by
    intro l hl
    simp only [List.mem_map] at hl
    obtain ⟨g, hg, he⟩ := hl
    obtain ⟨hgwf, hgle, hgne⟩ := hchunkfacts g hg
    subst he
    refine ⟨?_, b64EncodeNoPad_all g hgwf⟩
    have hlen := b64EncodeNoPad_length g
    have hg1 : 1 ≤ g.length := by
      match g, hgne with
      | c :: cs, _ => simp
    intro hnil
    rw [hnil] at hlen
    simp at hlen
    omega
  have hmapwf : ∀ g ∈ chunks54 (write_markers2_content m.content).1,
      BytesWF g ∧ g.length ≤ 54 :=
    fun g hg => ⟨(hchunkfacts g hg).1, (hchunkfacts g hg).2.1⟩
  constructor
  · simp only [write_markers2, hv]
  · have hout : write_version v ++ base64_encode (write_markers2_content m.content).1 ++
        List.replicate (m.size - (2 + (base64_encode (write_markers2_content m.content).1).length)) 0 =
        v.major :: v.minor ::
          (joinNL ((chunks54 (write_markers2_content m.content).1).map b64EncodeNoPad) ++
            0 :: List.replicate
              (m.size - (2 + (base64_encode (write_markers2_content m.content).1).length)) 0) := by
      simp [write_version, base64_encode]
    rw [hout]
    have hch : take_base64_chunks
        (joinNL ((chunks54 (write_markers2_content m.content).1).map b64EncodeNoPad) ++
          0 :: List.replicate
            (m.size - (2 + (base64_encode (write_markers2_content m.content).1).length)) 0) =
        some (0 :: List.replicate
            (m.size - (2 + (base64_encode (write_markers2_content m.content).1).length)) 0,
          (chunks54 (write_markers2_content m.content).1).map b64EncodeNoPad) := by
      rw [take_base64_chunks]
      apply take_base64_chunks_go_join _ _ _ hlfacts
      have h1 := joinNL_length_ge _ (fun l hl => (hlfacts l hl).1)
      simp only [List.length_append, List.length_map] at h1 ⊢
      omega
    have hdec : decode_base64_chunks
        ((chunks54 (write_markers2_content m.content).1).map b64EncodeNoPad) =
        .ok (write_markers2_content m.content).1 := by
      rw [decode_chunks_map _ hmapwf, chunks54_flatten]
    simp only [take_markers2, take_version, hch, hdec, hinner, take_nullbytes_replicate]

/-! ## Claims -/

/-- **C1 (counterexample).** The round-trip `write_markers2 ∘ parse` is *not*
bit-exact for every accepted byte string: the outer payload
`01 01 "AQEA" 00` is accepted (its chunk `"AQEA"` decodes to the inner bytes
`01 01 00`, whose trailing null is dropped as leftover of the inner parse),
but re-serialising re-encodes the content canonically as `"AQE"` and pads
with an extra null byte, yielding `01 01 "AQE" 00 00 ≠ 01 01 "AQEA" 00`. -/
theorem markers2_parse_write_not_bitexact :
    Markers2.parse [1, 1, 65, 81, 69, 65, 0] =
      .ok ⟨some ⟨1, 1⟩, 7, ⟨⟨1, 1⟩, []⟩⟩ ∧
    write_markers2 ⟨some ⟨1, 1⟩, 7, ⟨⟨1, 1⟩, []⟩⟩ = some ([1, 1, 65, 81, 69, 0, 0], 7) ∧
    ([1, 1, 65, 81, 69, 0, 0] : Bytes) ≠ [1, 1, 65, 81, 69, 65, 0] := by
  refine ⟨by decide, by decide, by decide⟩

/-- **C1 (amended).** For every byte string accepted by the generic `Markers2`
parse whose flips carry no `Unknown` actions, serialising the parsed value
succeeds and yields a byte string that the parse accepts again, recovering
the same version and the same marker content (the recorded size becomes the
written length); bit-exactness holds only when the input is already in the
canonical encoding that `write_markers2` emits. -/
theorem markers2_write_of_parse_reparses :
    ∀ (s : Bytes) (m : Markers2), Markers2.parse s = .ok m →
      contentNoUnknownB m.content = true →
      ∃ out n, write_markers2 m = some (out, n) ∧
        Markers2.parse out = .ok ⟨m.version, out.length, m.content⟩ := by
  intro s m hp hno
  obtain ⟨htm, hwf, v, hv, hsize⟩ := markers2_parse_sound hp
  obtain ⟨hw, hre⟩ := take_markers2_write m v hv hwf hno
  refine ⟨_, _, hw, ?_⟩
  rw [hv]
  simp only [Markers2.parse, hre]

/-- Witness for `markers2_write_of_parse_reparses` at the concrete accepted
input `01 01 "AQEA" 00`. -/
theorem markers2_write_of_parse_reparses_witness :
    ∃ out n, write_markers2 ⟨some ⟨1, 1⟩, 7, ⟨⟨1, 1⟩, []⟩⟩ = some (out, n) ∧
      Markers2.parse out =
        .ok ⟨(⟨some ⟨1, 1⟩, 7, ⟨⟨1, 1⟩, []⟩⟩ : Markers2).version, out.length,
          (⟨some ⟨1, 1⟩, 7, ⟨⟨1, 1⟩, []⟩⟩ : Markers2).content⟩ :=
  markers2_write_of_parse_reparses [1, 1, 65, 81, 69, 65, 0]
    ⟨some ⟨1, 1⟩, 7, ⟨⟨1, 1⟩, []⟩⟩ (by decide) (by decide)

/-- **C2.** `write_flip_marker` reports a wrong byte count: for the flip with
one `Jump` action and empty label it emits 39 bytes (`"FLIP\0"`, a 4-byte
size, the 9-byte fixed body with label terminator and count, and the 21-byte
action) but returns 21 — the action loop *assigns* instead of adding, so the
reported count is just the last action's length. -/
theorem write_flip_marker_count_bug :
    (write_flip_marker ⟨0, true, [], false,
      [.Jump ⟨[0, 0, 0, 0, 0, 0, 0, 0], [0, 0, 0, 0, 0, 0, 0, 0]⟩]⟩).1.length = 39 ∧
    (write_flip_marker ⟨0, true, [], false,
      [.Jump ⟨[0, 0, 0, 0, 0, 0, 0, 0], [0, 0, 0, 0, 0, 0, 0, 0]⟩]⟩).2 = 21 ∧
    (21 : Nat) ≠ 39 := by
  refine ⟨by decide, by decide, by decide⟩

/-- **C3.** Unknown flip actions are *not* preserved byte-identically: the
valid tag below contains a `FLIP` marker (declared length 15) with one
unknown action (id 2, one payload byte).  Parsing succeeds and preserves the
action, but re-serialising declares the `FLIP` length as `9 + 0 + (1 + 1) =
11` (`write_flip_marker` counts `data.len + 1` per unknown action although
`write_flip_marker_action` emits `data.len + 5` bytes), so the output
differs from the input, and re-parsing the output even drops the flip
marker entirely. -/
theorem flip_unknown_action_write_size_bug :
    Markers2.parse [1, 1, 65, 81, 70, 71, 84, 69, 108, 81, 65, 65, 65, 65, 65, 65, 56, 65,
        65, 65, 69, 65, 65, 81, 65, 65, 65, 65, 69, 67, 65, 65, 65, 65, 65, 97, 115, 0] =
      .ok ⟨some ⟨1, 1⟩, 38, ⟨⟨1, 1⟩,
        [.Flip ⟨0, true, [], true, [.Unknown ⟨2, [171]⟩]⟩]⟩⟩ ∧
    write_markers2 ⟨some ⟨1, 1⟩, 38, ⟨⟨1, 1⟩,
        [.Flip ⟨0, true, [], true, [.Unknown ⟨2, [171]⟩]⟩]⟩⟩ =
      some ([1, 1, 65, 81, 70, 71, 84, 69, 108, 81, 65, 65, 65, 65, 65, 65, 115, 65, 65, 65,
        69, 65, 65, 81, 65, 65, 65, 65, 69, 67, 65, 65, 65, 65, 65, 97, 115, 0], 38) ∧
    ([1, 1, 65, 81, 70, 71, 84, 69, 108, 81, 65, 65, 65, 65, 65, 65, 115, 65, 65, 65, 69,
        65, 65, 81, 65, 65, 65, 65, 69, 67, 65, 65, 65, 65, 65, 97, 115, 0] : Bytes) ≠
      [1, 1, 65, 81, 70, 71, 84, 69, 108, 81, 65, 65, 65, 65, 65, 65, 56, 65, 65, 65, 69,
        65, 65, 81, 65, 65, 65, 65, 69, 67, 65, 65, 65, 65, 65, 97, 115, 0] ∧
    Markers2.parse [1, 1, 65, 81, 70, 71, 84, 69, 108, 81, 65, 65, 65, 65, 65, 65, 115, 65,
        65, 65, 69, 65, 65, 81, 65, 65, 65, 65, 69, 67, 65, 65, 65, 65, 65, 97, 115, 0] =
      .ok ⟨some ⟨1, 1⟩, 38, ⟨⟨1, 1⟩, []⟩⟩ := by
  refine ⟨by decide, by decide, by decide, by decide⟩

/-- **C4.** Each top-level parse is `all_consuming`: whenever it returns a
value, the underlying parser consumed the whole input (remainder `[]`). -/
theorem parse_all_consuming :
    (∀ (s : Bytes) (m : Markers2), Markers2.parse s = .ok m → take_markers2 s = .ok [] m) ∧
    (∀ (s : Bytes) (a : Analysis), Analysis.parse s = .ok a → take_analysis s = some ([], a)) ∧
    (∀ (s : Bytes) (a : RelVolAd), RelVolAd.parse s = .ok a →
      take_relvolad s = some ([], a)) := by
  refine ⟨fun s m h => (markers2_parse_sound h).1, ?_, ?_⟩
  · intro s a h
    simp only [Analysis.parse] at h
    cases h0 : take_analysis s with
    | none => rw [h0] at h; simp at h
    | some p =>
      rw [h0] at h
      obtain ⟨r, a'⟩ := p
      match r, h with
      | [], h =>
        dsimp only at h
        simp only [ParseOut.ok.injEq] at h
        subst h
        exact rfl
  · intro s a h
    simp only [RelVolAd.parse] at h
    cases h0 : take_relvolad s with
    | none => rw [h0] at h; simp at h
    | some p =>
      rw [h0] at h
      obtain ⟨r, a'⟩ := p
      match r, h with
      | [], h =>
        dsimp only at h
        simp only [ParseOut.ok.injEq] at h
        subst h
        exact rfl

/-- Witness for `parse_all_consuming` at concrete accepted inputs of each of
the three tags. -/
theorem parse_all_consuming_witness :
    take_markers2 [1, 1, 65, 81, 69, 0] = .ok [] ⟨some ⟨1, 1⟩, 6, ⟨⟨1, 1⟩, []⟩⟩ ∧
    take_analysis [2, 1] = some ([], ⟨⟨2, 1⟩⟩) ∧
    take_relvolad [1, 0, 1, 0, 0] = some ([], ⟨⟨1, 0⟩⟩) :=
  ⟨parse_all_consuming.1 [1, 1, 65, 81, 69, 0] ⟨some ⟨1, 1⟩, 6, ⟨⟨1, 1⟩, []⟩⟩ (by decide),
    parse_all_consuming.2.1 [2, 1] ⟨⟨2, 1⟩⟩ (by decide),
    parse_all_consuming.2.2 [1, 0, 1, 0, 0] ⟨⟨1, 0⟩⟩ (by decide)⟩

/-- **C5.** `Markers2` parsing *can* panic, contradicting the claim: on the
outer payload `01 01 "AB" 00` the chunk `"AB"` fails base64 decoding with a
non-`InvalidLength` error (non-zero trailing bits in `'B'`), so no retry
happens and `decode_base64_chunks` hits `res.unwrap()` on an error value —
a panic, not a returned `Base64Error`. -/
theorem markers2_parse_panics_on_bad_chunk :
    Markers2.parse [1, 1, 65, 66, 0] = .panic ∧
    (ParseOut.panic : ParseOut Markers2) ≠ .err := by
  refine ⟨by decide, by decide⟩

/-- **C6 (counterexample).** A chunk whose length is ≡ 3 (mod 4) is *not*
retried: `"AQE"` decodes directly (pad-optional base64) to `01 01`, while
the claimed retried decode of `"AQEA"` yields `01 01 00` — a different
contribution. -/
theorem chunk_decode_no_retry_counterexample :
    decode_base64_chunks [[65, 81, 69]] = .ok [1, 1] ∧
    b64_decode_lenient [65, 81, 69, 65] = .ok [1, 1, 0] ∧
    ([1, 1] : Bytes) ≠ [1, 1, 0] := by
  refine ⟨by decide, by rfl, by decide⟩

/-- **C6 (amended).** The one-character retry happens only when the first
decode fails with `InvalidLength`, i.e. exactly when the chunk length is
≡ 1 (mod 4); chunks of length ≡ 0, 2, 3 (mod 4) are decoded directly and
contribute those bytes (successful or unwrap-panicking without retry). -/
theorem decode_chunk_retry_only_invalid_length :
    ∀ c : Bytes, c.length ≤ 72 →
      (c.length % 4 = 1 →
        decodeOneChunk c = (match b64_decode_lenient (c ++ [65]) with
          | .ok d => DecRes.ok d
          | .error _ => DecRes.panic)) ∧
      (c.length % 4 ≠ 1 →
        decodeOneChunk c = (match b64_decode_lenient c with
          | .ok d => DecRes.ok d
          | .error _ => DecRes.panic)) := by
  intro c hle
  have h72 : ¬ 72 < c.length := by omega
  constructor
  · intro h1
    have hlen : b64_decode_lenient c = .error .invalidLength := by
      simp [b64_decode_lenient, h1]
    simp only [decodeOneChunk, if_neg h72, hlen]
  · intro h1
    have hcore : b64_decode_lenient c = b64DecodeCore c := by
      simp [b64_decode_lenient, h1]
    have hnol : ∀ {s : Bytes}, s.length % 4 ≠ 1 →
        b64DecodeCore s ≠ .error .invalidLength := by
      intro s
      induction s using b64DecodeCore.induct <;> intro hm he <;>
        (simp_all [b64DecodeCore]; try omega)
    simp only [decodeOneChunk, if_neg h72, hcore]
    cases he : b64DecodeCore c with
    | ok d => rfl
    | error e =>
      match e, he with
      | .invalidByte, he => rfl
      | .invalidLastSymbol, he => rfl
      | .invalidLength, he => exact absurd he (hnol h1)

/-- Witness for `decode_chunk_retry_only_invalid_length` at the 3-character
chunk `"AQE"`. -/
theorem decode_chunk_retry_only_invalid_length_witness :
    decodeOneChunk [65, 81, 69] = (match b64_decode_lenient [65, 81, 69] with
      | .ok d => DecRes.ok d
      | .error _ => DecRes.panic) :=
  (decode_chunk_retry_only_invalid_length [65, 81, 69] (by decide)).2 (by decide)

theorem take_marker_known_leftover {name data rest l : Bytes} {m : Marker}
    (hne : name ≠ []) (h0 : 0 ∉ name) (hu : validUtf8 name = true)
    (hlen : data.length < 2 ^ 32) (hk : is_known_name name = true)
    (hkb : known_body name data = some (l, m)) (hl : l ≠ []) :
    take_marker (name ++ 0 :: (beBytes32 data.length ++ data ++ rest)) = none := by
  simp only [take_marker, take_marker_name_append hne h0 hu, List.append_assoc,
    take_u32be_beBytes32 hlen, takeExact_append, hk, if_pos, hkb]
  cases l with
  | nil => exact absurd rfl hl
  | cons x xs => rfl

/-- **C7 (counterexample).** Leftover bytes in a known marker's declared body
do *not* fail the whole tag parse: the payload below carries the inner bytes
`01 01 "BPMLOCK\0" (len 2) 01 99`, whose `BPMLOCK` body parser consumes one
byte and leaves `99` — `all_consuming` fails the marker, but `many0` merely
stops, the inner leftover is discarded, and the tag parse *succeeds* with an
empty marker list (the marker silently dropped). -/
theorem known_marker_leftover_truncates_not_fails :
    known_body nmBPMLOCK [1, 153] = some ([153], .BPMLock ⟨true⟩) ∧
    Markers2.parse [1, 1, 65, 81, 70, 67, 85, 69, 49, 77, 84, 48, 78, 76, 65, 65, 65, 65,
        65, 65, 73, 66, 109, 81, 0] =
      .ok ⟨some ⟨1, 1⟩, 25, ⟨⟨1, 1⟩, []⟩⟩ := by
  refine ⟨by decide, by decide⟩

/-- **C7 (amended).** A known marker whose declared length leaves bytes
unconsumed by its body parser makes `take_marker` itself fail (the
`all_consuming` check); `many0` then ends the marker list at that point and
the whole tag parse still succeeds with the markers seen so far, as the
counterexample shows. -/
theorem known_marker_leftover_fails_marker :
    ∀ (name data rest l : Bytes) (m : Marker), is_known_name name = true →
      data.length < 2 ^ 32 → known_body name data = some (l, m) → l ≠ [] →
      take_marker (name ++ 0 :: (beBytes32 data.length ++ data ++ rest)) = none := by
  intro name data rest l m hk hlen hkb hl
  rcases is_known_name_cases hk with hn | hn | hn | hn | hn <;> subst hn <;>
    exact take_marker_known_leftover (by decide) (by decide) (by decide) hlen hk hkb hl

/-- Witness for `known_marker_leftover_fails_marker` at the `BPMLOCK` marker
with declared length 2 and body `01 99`. -/
theorem known_marker_leftover_fails_marker_witness :
    take_marker (nmBPMLOCK ++ 0 :: (beBytes32 (List.length [1, 153]) ++ [1, 153] ++ [])) =
      none :=
  known_marker_leftover_fails_marker nmBPMLOCK [1, 153] [] [153] (.BPMLock ⟨true⟩)
    (by decide) (by decide) (by decide) (by decide)

/-- **C8.** `RelVolAd` parsing accepts the 5-byte payload `01 00 01 00 00`
(version 1.0), and the three bytes after the version must be exactly the
literal `01 00 00`: any other trailing triple fails the parse. -/
theorem relvolad_trailing_literal :
    RelVolAd.parse [1, 0, 1, 0, 0] = .ok ⟨⟨1, 0⟩⟩ ∧
    ∀ b2 b3 b4 : Nat, ¬(b2 = 1 ∧ b3 = 0 ∧ b4 = 0) →
      RelVolAd.parse [1, 0, b2, b3, b4] = .err := by
  refine ⟨by decide, ?_⟩
  intro b2 b3 b4 h
  by_cases h2 : b2 = 1 <;> by_cases h3 : b3 = 0 <;> by_cases h4 : b4 = 0 <;>
    simp_all [RelVolAd.parse, take_relvolad, take_version, take_tag]

/-- Witness for `relvolad_trailing_literal` with the third byte mutated
(`02 00 00`). -/
theorem relvolad_trailing_literal_witness :
    RelVolAd.parse [1, 0, 2, 0, 0] = .err :=
  relvolad_trailing_literal.2 2 0 0 (by decide)

/-- **C9.** `Analysis` parsing maps the 2-byte ID3 payload `02 01` to version
2.1, and the Ogg ASCII payload `"2.1"` (bytes `32 2E 31`) to that same
version. -/
theorem analysis_concrete_payloads :
    Analysis.parse [2, 1] = .ok ⟨⟨2, 1⟩⟩ ∧
    Analysis.parse_ogg [50, 46, 49] = .ok ⟨⟨2, 1⟩⟩ := by
  refine ⟨by decide, by decide⟩

/-- **C10.** Every `Markers2` value produced by `parse_ogg` has `version =
none`, and the generic `write_markers2` (the ID3-envelope write) fails on
any value whose version is `none`, producing no bytes. -/
theorem parse_ogg_version_none_write_err :
    (∀ (s : Bytes) (m : Markers2), Markers2.parse_ogg s = .ok m → m.version = none) ∧
    (∀ m : Markers2, m.version = none → write_markers2 m = none) := by
  constructor
  · intro s m h
    simp only [Markers2.parse_ogg] at h
    cases h0 : base64_decode s with
    | error e => rw [h0] at h; simp at h
    | ok d =>
      rw [h0] at h
      dsimp only at h
      cases h1 : parse_markers2_content d with
      | none => rw [h1] at h; simp at h
      | some p =>
        rw [h1] at h
        dsimp only at h
        obtain ⟨l, content⟩ := p
        simp only [ParseOut.ok.injEq] at h
        subst h
        rfl
  · intro m h
    simp only [write_markers2, h]

/-- Witness for `parse_ogg_version_none_write_err` at the Ogg payload
`"AQE"` and the value it parses to. -/
theorem parse_ogg_version_none_write_err_witness :
    (⟨none, 3, ⟨⟨1, 1⟩, []⟩⟩ : Markers2).version = none ∧
    write_markers2 ⟨none, 3, ⟨⟨1, 1⟩, []⟩⟩ = none :=
  ⟨parse_ogg_version_none_write_err.1 [65, 81, 69] ⟨none, 3, ⟨⟨1, 1⟩, []⟩⟩ (by rfl),
    parse_ogg_version_none_write_err.2 ⟨none, 3, ⟨⟨1, 1⟩, []⟩⟩ rfl⟩
